import Mathlib

/-!
Verification of the `secureworks/errors` Go library: a shallow embedding of
its frame/stack-trace model and its multi-error flattening engine, with
theorems checking the natural-language specification against the code.

Modelling conventions:
* a Go `error` interface value is `Option Err` (`none` is the nil error;
  the library's `isNil` helper, which also catches typed nils, is modelled
  by `none`);
* a Go `*MultiError` value is `Option (List Err)` (`none` is the nil
  pointer, `some es` is `&MultiError{errors: es}`);
* Go slices are Lean lists (a nil slice and an empty slice are both `[]`);
* Go strings are Lean `String`s, machine integers are `Int`/`Nat`;
* Go value equality on errors is modelled structurally (in Go two
  separately allocated errors with equal content are distinct; no claim
  under study depends on that distinction).
-/

set_option maxHeartbeats 1000000

namespace SecureworksErrors

/-- Embedding of the package's `frame` struct (frames.go): a program
counter plus the three synthetic location fields.  A frame made from a
program counter alone has empty strings and line 0 (lazy resolution
against the Go runtime is outside the model; the claims under study only
move frames around, they never resolve them). -/
structure frame where
  pc : Nat
  function : String
  file : String
  line : Int
deriving DecidableEq, Repr

/-- Embedding of the error values that the multi-error and frame
extraction code can encounter:

* `base msg` — an opaque error (`errors.New` from stdlib.go): no
  `Unwrap`, no `Errors`, no frames;
* `wrap msg inner` — a wrapping error such as `fmt.Errorf("...: %w", inner)`:
  `Unwrap` returns `inner`, no other capability;
* `wst pcs inner` — the package's `withStackTrace` wrapper: implements
  `stackTracer` (`StackTrace()` returns `pcs`) and `framer`, `Unwrap`
  returns `inner`;
* `wfr frs inner` — the package's `withFrames` wrapper: implements
  `framer` (`Frames()` returns `frs`), `Unwrap` returns `inner`;
* `multi errs` — a non-nil `*MultiError` seen through the error
  interface: implements `Errors`, custom `As`/`Is`, `Unwrap` returns nil;
* `custom msg errs` — a third-party multi-error type (the test suite's
  `multiErrorType`): implements `Errors() []error` (whose result may
  contain nil entries), but no `Unwrap`, `As` or `Is`. -/
inductive Err where
  | base (msg : String)
  | wrap (msg : String) (inner : Err)
  | wst (pcs : List Nat) (inner : Err)
  | wfr (frs : List frame) (inner : Err)
  | multi (errs : List Err)
  | custom (msg : String) (errs : List (Option Err))

mutual

/-- Structural equality on `Err`, standing in for Go error value
equality. -/
def errEq : Err → Err → Bool
  | .base m1, .base m2 => m1 == m2
  | .wrap m1 i1, .wrap m2 i2 => m1 == m2 && errEq i1 i2
  | .wst p1 i1, .wst p2 i2 => p1 == p2 && errEq i1 i2
  | .wfr f1 i1, .wfr f2 i2 => f1 == f2 && errEq i1 i2
  | .multi e1, .multi e2 => errEqL e1 e2
  | .custom m1 e1, .custom m2 e2 => m1 == m2 && errEqLO e1 e2
  | _, _ => false
termination_by a _ => sizeOf a

/-- `errEq` on component lists. -/
def errEqL : List Err → List Err → Bool
  | [], [] => true
  | a :: as, b :: bs => errEq a b && errEqL as bs
  | _, _ => false
termination_by a _ => sizeOf a

/-- `errEq` on third-party component lists. -/
def errEqLO : List (Option Err) → List (Option Err) → Bool
  | [], [] => true
  | none :: as, none :: bs => errEqLO as bs
  | some a :: as, some b :: bs => errEq a b && errEqLO as bs
  | _, _ => false
termination_by a _ => sizeOf a

end

instance : BEq Err := ⟨errEq⟩

/-- Embedding of `New` (stdlib.go): `errors.New` produces an opaque error. -/
def New (text : String) : Err := .base text

/-- Embedding of `Unwrap` (stdlib.go / stderrors): the wrapper types
`fmt.Errorf`-wrap, `withStackTrace` and `withFrames` unwrap to their
inner error; `*MultiError` has `Unwrap() error { return nil }`
(multierror.go line 205); opaque and third-party multi errors have no
`Unwrap` method. -/
def errUnwrap : Err → Option Err
  | .wrap _ inner => some inner
  | .wst _ inner => some inner
  | .wfr _ inner => some inner
  | _ => none

/-- Embedding of `unwrapMultiErr` (multierror.go lines 115-121): find the
first error in the unwrap chain whose concrete type implements
`multiError` (`Errors() []error`), i.e. `*MultiError` or a third-party
multi-error type.  `errors.As` checks type-assignability at each node
before unwrapping, so the walk is: test the node, then follow `Unwrap`. -/
def unwrapMultiErr : Err → Option Err
  | .base _ => none
  | .wrap _ inner => unwrapMultiErr inner
  | .wst _ inner => unwrapMultiErr inner
  | .wfr _ inner => unwrapMultiErr inner
  | .multi errs => some (.multi errs)
  | .custom msg errs => some (.custom msg errs)

/-- Convenience: does `unwrapMultiErr` find a multi error in the chain? -/
def isMultiErr (e : Err) : Bool := (unwrapMultiErr e).isSome

theorem sizeOf_unwrapMultiErr_le {e mm : Err} (h : unwrapMultiErr e = some mm) :
    sizeOf mm ≤ sizeOf e := by
  induction e using unwrapMultiErr.induct <;>
    simp only [unwrapMultiErr, Option.some.injEq, reduceCtorEq] at h
  case case2 msg inner ih =>
    have := ih h
    simp only [Err.wrap.sizeOf_spec]
    omega
  case case3 pcs inner ih =>
    have := ih h
    simp only [Err.wst.sizeOf_spec]
    omega
  case case4 frs inner ih =>
    have := ih h
    simp only [Err.wfr.sizeOf_spec]
    omega
  case case5 errs => subst h; omega
  case case6 msg errs => subst h; omega

mutual

/-- The body of `flatten` (multierror.go lines 94-111) applied to one
non-nil component `e`, with the call `flatten(unwrapMultiErr(e))`
unfolded one step so that the recursion is well-founded: if the chain of
`e` holds a `*MultiError` its list is returned as-is (the fast path,
trusting the type's invariant); if it holds a third-party multi error
its components are flattened recursively; otherwise `e` itself is kept.
The lemma `flattenOne_eq` below restates this as the literal source
composition. -/
def flattenOne (e : Err) : List Err :=
  match h : unwrapMultiErr e with
  | some (.multi es) => es
  | some (.custom _ es) => flattenList es
  | some _ => []
  | none => [e]
termination_by sizeOf e
decreasing_by
  have := sizeOf_unwrapMultiErr_le h
  simp only [Err.custom.sizeOf_spec] at this
  omega

/-- The loop of `flatten` over a third-party component list: skip nils,
flatten components that hold multi errors, keep the rest. -/
def flattenList : List (Option Err) → List Err
  | [] => []
  | none :: rest => flattenList rest
  | some e :: rest => flattenOne e ++ flattenList rest
termination_by l => sizeOf l

end

/-- Embedding of `flatten` (multierror.go lines 94-111): get the error
list of a `multiError`. -/
def flatten : Err → List Err
  | .multi errs => errs
  | .custom _ errs => flattenList errs
  | _ => []

theorem flattenOne_eq (e : Err) :
    flattenOne e =
      match unwrapMultiErr e with
      | some mm => flatten mm
      | none => [e] := by
  rw [flattenOne]
  rcases h : unwrapMultiErr e with _ | mm
  · rfl
  · cases mm <;> rfl

/-- The loop of `NewMultiError` (multierror.go lines 73-88) with the
accumulated `merr` made explicit.  Note the pointer only becomes non-nil
once a non-nil candidate is seen, even if that candidate contributes no
components. -/
def newMultiGo (merr : Option (List Err)) : List (Option Err) → Option (List Err)
  | [] => merr
  | none :: rest => newMultiGo merr rest
  | some e :: rest =>
      let cur := merr.getD []
      match unwrapMultiErr e with
      | some mm => newMultiGo (some (cur ++ flatten mm)) rest
      | none => newMultiGo (some (cur ++ [e])) rest

/-- Embedding of `NewMultiError` (multierror.go lines 73-88). -/
def NewMultiError (errors : List (Option Err)) : Option (List Err) :=
  newMultiGo none errors

namespace MultiError

/-- Direct access to the `errors` field (`merr.errors`); in the source
this would panic on a nil receiver, and is only reached when the
receiver is known non-nil. -/
def rawErrors : Option (List Err) → List Err
  | none => []
  | some es => es

/-- Embedding of `(*MultiError).Errors` (multierror.go lines 145-150). -/
def Errors (merr : Option (List Err)) : List Err :=
  match merr with
  | none => []
  | some es => if es.length == 0 then [] else es

/-- Embedding of `(*MultiError).Len` (multierror.go lines 153-158). -/
def Len (merr : Option (List Err)) : Nat :=
  match merr with
  | none => 0
  | some es => es.length

/-- Embedding of `(*MultiError).ErrorN` (multierror.go lines 162-171). -/
def ErrorN (merr : Option (List Err)) (n : Int) : Option Err :=
  match merr with
  | none => none
  | some es =>
      if n < 0 || (es.length : Int) ≤ n then none
      else es[n.toNat]?

/-- Embedding of `(*MultiError).ErrorOrNil` (multierror.go lines 184-192). -/
def ErrorOrNil (merr : Option (List Err)) : Option Err :=
  if (Errors merr).length == 0 then none
  else if (Errors merr).length == 1 then (rawErrors merr).head?
  else merr.map Err.multi

/-- Embedding of `(*MultiError).Unwrap` (multierror.go line 205): always nil. -/
def Unwrap (_ : Option (List Err)) : Option Err := none

end MultiError

mutual

/-- Embedding of the `stderrors.Is` sentinel match specialised to this
model: at each node, test value equality with the target, then consult a
custom `Is` method if the node has one (`*MultiError` iterates its
components), then follow `Unwrap`. -/
def errIs (e target : Err) : Bool :=
  errEq e target ||
  (match e with
   | .wrap _ inner => errIs inner target
   | .wst _ inner => errIs inner target
   | .wfr _ inner => errIs inner target
   | .multi es => errIsList es target
   | _ => false)
termination_by sizeOf e

/-- The loop of `(*MultiError).Is` (multierror.go lines 225-232) over a
component list. -/
def errIsList : List Err → Err → Bool
  | [], _ => false
  | e :: es, target => errIs e target || errIsList es target
termination_by l _ => sizeOf l

end

mutual

/-- Embedding of `stderrors.As` specialised to this model.  The target
type is abstracted as a Boolean type test `p` on the concrete error
value; the result is the error value the target gets set to (`none`
means `As` returned false).  At each node: test assignability, then
consult a custom `As` method if the node has one (`*MultiError` iterates
its components), then follow `Unwrap`. -/
def errAs (p : Err → Bool) (e : Err) : Option Err :=
  if p e then some e
  else
    match e with
    | .wrap _ inner => errAs p inner
    | .wst _ inner => errAs p inner
    | .wfr _ inner => errAs p inner
    | .multi es => errAsList p es
    | _ => none
termination_by sizeOf e

/-- The loop of `(*MultiError).As` (multierror.go lines 212-219) over a
component list: first component that matches wins. -/
def errAsList (p : Err → Bool) : List Err → Option Err
  | [] => none
  | e :: es =>
      match errAs p e with
      | some v => some v
      | none => errAsList p es
termination_by l => sizeOf l

end

/-- Embedding of the method `(*MultiError).Is` (multierror.go lines
225-232): report whether any component matches the target. -/
def MultiError.Is (merr : Option (List Err)) (target : Err) : Bool :=
  errIsList (MultiError.Errors merr) target

/-- Embedding of the method `(*MultiError).As` (multierror.go lines
212-219): find the first component that matches the target type test and
return the value the target is set to. -/
def MultiError.As (merr : Option (List Err)) (p : Err → Bool) : Option Err :=
  errAsList p (MultiError.Errors merr)

/-- The fixed misuse message built by `Append` (multierror.go lines
352-353 and 363-364). -/
def appendMisuseText : String :=
  "errors.Append used incorrectly: second parameter may not be a multiError"

/-- Embedding of `Append` (multierror.go lines 342-371). -/
def Append (receivingErr appendingErr : Option Err) : Option (List Err) :=
  match receivingErr, appendingErr with
  | none, none => none
  | none, some ae =>
      let ae2 := match unwrapMultiErr ae with
        | some _ => New appendMisuseText
        | none => ae
      some [ae2]
  | some re, none =>
      (match unwrapMultiErr re with
       | some mre => some (flatten mre)
       | none => some [re])
  | some re, some ae =>
      let ae2 := match unwrapMultiErr ae with
        | some _ => New appendMisuseText
        | none => ae
      (match unwrapMultiErr re with
       | some mre => some (flatten mre ++ [ae2])
       | none => some [re, ae2])

/-- The fixed misuse message built by `AppendInto` (multierror.go lines
435-436). -/
def appendIntoMisuseText : String :=
  "errors.AppendInto used incorrectly: second parameter may not be a multiError"

/-- Embedding of `AppendInto` (multierror.go lines 421-441), restricted
to a non-nil receiving pointer (a nil pointer panics in the source).
Returns the updated receiving error and the reported Boolean. -/
def AppendInto (receivingErr : Option Err) (appendingErr : Option Err) :
    Option Err × Bool :=
  match appendingErr with
  | none => (MultiError.ErrorOrNil (NewMultiError [receivingErr]), false)
  | some ae =>
      let ae2 : Err :=
        match unwrapMultiErr ae with
        | some _ => New appendIntoMisuseText
        | none => ae
      (MultiError.ErrorOrNil (Append receivingErr (some ae2)), true)

mutual

/-- Well-formedness of the `*MultiError`s occurring inside an error
value: every `multi` node carries a component list containing no
multi-error (the invariant every publicly constructed `MultiError`
satisfies; the `errors` field is unexported, so client code cannot build
a `*MultiError` violating it).  Third-party multi errors (`custom`) are
unconstrained apart from the `multi` nodes they contain. -/
def multiWF : Err → Bool
  | .base _ => true
  | .wrap _ inner => multiWF inner
  | .wst _ inner => multiWF inner
  | .wfr _ inner => multiWF inner
  | .multi errs => errs.all (fun e => !(isMultiErr e))
  | .custom _ errs => multiWFList errs
termination_by e => sizeOf e

/-- `multiWF` over a third-party component list. -/
def multiWFList : List (Option Err) → Bool
  | [] => true
  | none :: rest => multiWFList rest
  | some e :: rest => multiWF e && multiWFList rest
termination_by l => sizeOf l

end

mutual

/-- Embedding of the `Error()` message of each error variant:
`withStackTrace` and `withFrames` forward to the wrapped error, a
`*MultiError` renders its components in brackets joined by a semicolon
and space (`formatMessages`, multierror.go lines 270-281). -/
def errMsg : Err → String
  | .base m => m
  | .wrap m _ => m
  | .wst _ inner => errMsg inner
  | .wfr _ inner => errMsg inner
  | .multi es => "[" ++ msgJoin es ++ "]"
  | .custom m _ => m
termination_by e => sizeOf e

/-- The component-message join of `formatMessages`. -/
def msgJoin : List Err → String
  | [] => ""
  | [e] => errMsg e
  | e :: es => errMsg e ++ "; " ++ msgJoin es
termination_by l => sizeOf l

end

mutual

/-- Specification-side description of construction (spec section 4.3 and
the flatten depth invariance property): the non-nil leaf errors of one
candidate, in left-to-right discovery order — a candidate whose chain
holds no multi error is itself a leaf; otherwise the candidate
contributes the leaves of the components of the first multi error in its
chain. -/
def specLeaves (e : Err) : List Err :=
  match h : unwrapMultiErr e with
  | none => [e]
  | some (.multi es) => specLeavesL es
  | some (.custom _ es) => specLeavesLO es
  | some _ => []
termination_by sizeOf e
decreasing_by
  · have := sizeOf_unwrapMultiErr_le h
    simp only [Err.multi.sizeOf_spec] at this
    omega
  · have := sizeOf_unwrapMultiErr_le h
    simp only [Err.custom.sizeOf_spec] at this
    omega

/-- `specLeaves` over a `MultiError` component list. -/
def specLeavesL : List Err → List Err
  | [] => []
  | e :: es => specLeaves e ++ specLeavesL es
termination_by l => sizeOf l

/-- `specLeaves` over a candidate list with possible nils (also the
spec-side description of the whole of `NewMultiError`). -/
def specLeavesLO : List (Option Err) → List Err
  | [] => []
  | none :: es => specLeavesLO es
  | some e :: es => specLeaves e ++ specLeavesLO es
termination_by l => sizeOf l

end

theorem isMultiErr_false_iff {e : Err} :
    isMultiErr e = false ↔ unwrapMultiErr e = none := by
  unfold isMultiErr
  cases unwrapMultiErr e <;> simp

theorem multiWF_unwrap {e mm : Err} (hwf : multiWF e = true)
    (h : unwrapMultiErr e = some mm) : multiWF mm = true := by
  induction e using unwrapMultiErr.induct <;>
    simp only [unwrapMultiErr, Option.some.injEq, reduceCtorEq] at h
  case case2 msg inner ih =>
    rw [multiWF] at hwf
    exact ih hwf h
  case case3 pcs inner ih =>
    rw [multiWF] at hwf
    exact ih hwf h
  case case4 frs inner ih =>
    rw [multiWF] at hwf
    exact ih hwf h
  case case5 errs => exact h ▸ hwf
  case case6 msg errs => exact h ▸ hwf

theorem leaf_multiWF {e : Err} (h : isMultiErr e = false) : multiWF e = true := by
  rw [isMultiErr_false_iff] at h
  induction e using unwrapMultiErr.induct <;>
    simp only [unwrapMultiErr, reduceCtorEq] at h <;> try rw [multiWF]
  case case2 msg inner ih => exact ih h
  case case3 pcs inner ih => exact ih h
  case case4 frs inner ih => exact ih h

theorem flatten_flat_aux :
    (∀ e, multiWF e = true → ∀ x ∈ flattenOne e, isMultiErr x = false) ∧
    (∀ l, multiWFList l = true → ∀ x ∈ flattenList l, isMultiErr x = false) := by
  apply flattenOne.mutual_induct
    (fun e => multiWF e = true → ∀ x ∈ flattenOne e, isMultiErr x = false)
    (fun l => multiWFList l = true → ∀ x ∈ flattenList l, isMultiErr x = false)
  · intro e es h hwf x hx
    rw [flattenOne_eq, h] at hx
    simp only [flatten] at hx
    have hm := multiWF_unwrap hwf h
    rw [multiWF] at hm
    have hx2 := List.all_eq_true.mp hm x hx
    simpa using hx2
  · intro e m es h ih hwf x hx
    rw [flattenOne_eq, h] at hx
    simp only [flatten] at hx
    have hm := multiWF_unwrap hwf h
    rw [multiWF] at hm
    exact ih hm x hx
  · intro e v hmu hcu hv hwf x hx
    rw [flattenOne_eq, hv] at hx
    cases v with
    | base m => simp [flatten] at hx
    | wrap m i => simp [flatten] at hx
    | wst p i => simp [flatten] at hx
    | wfr f i => simp [flatten] at hx
    | multi es => exact absurd rfl (hmu es)
    | custom m es => exact absurd rfl (hcu m es)
  · intro e h hwf x hx
    rw [flattenOne_eq, h] at hx
    simp only [List.mem_singleton] at hx
    subst hx
    rw [isMultiErr_false_iff]
    exact h
  · intro hwf x hx
    rw [flattenList] at hx
    simp at hx
  · intro rest ih hwf x hx
    rw [flattenList] at hx
    rw [multiWFList] at hwf
    exact ih hwf x hx
  · intro e rest ih1 ih2 hwf x hx
    rw [flattenList] at hx
    rw [multiWFList, Bool.and_eq_true] at hwf
    rcases List.mem_append.mp hx with hx | hx
    · exact ih1 hwf.1 x hx
    · exact ih2 hwf.2 x hx

theorem flattenOne_flat {e : Err} (hwf : multiWF e = true) :
    ∀ x ∈ flattenOne e, isMultiErr x = false :=
  flatten_flat_aux.1 e hwf

theorem flattenList_flat {l : List (Option Err)} (hwf : multiWFList l = true) :
    ∀ x ∈ flattenList l, isMultiErr x = false :=
  flatten_flat_aux.2 l hwf

theorem flatten_flat {e mm : Err} (hwf : multiWF e = true)
    (h : unwrapMultiErr e = some mm) :
    ∀ x ∈ flatten mm, isMultiErr x = false := by
  intro x hx
  have := flattenOne_flat hwf x ?_
  · exact this
  · rw [flattenOne_eq, h]
    exact hx

theorem multiWFList_of_forall {l : List (Option Err)}
    (h : ∀ e, some e ∈ l → multiWF e = true) : multiWFList l = true := by
  induction l with
  | nil => rw [multiWFList]
  | cons hd tl ih =>
      cases hd with
      | none =>
          rw [multiWFList]
          exact ih fun e he => h e (List.mem_cons_of_mem _ he)
      | some e =>
          rw [multiWFList, Bool.and_eq_true]
          exact ⟨h e (List.mem_cons_self _ _),
            ih fun x hx => h x (List.mem_cons_of_mem _ hx)⟩

theorem newMultiGo_some (acc : List Err) (l : List (Option Err)) :
    newMultiGo (some acc) l = some (acc ++ flattenList l) := by
  induction l generalizing acc with
  | nil => simp [newMultiGo, flattenList]
  | cons hd tl ih =>
      cases hd with
      | none =>
          rw [newMultiGo, flattenList, ih]
      | some e =>
          rw [newMultiGo]
          simp only [Option.getD_some]
          rw [flattenList]
          have he := flattenOne_eq e
          rcases h : unwrapMultiErr e with _ | mm
          · rw [h] at he
            simp only [ih, he, List.append_assoc]
          · rw [h] at he
            simp only [ih, he, List.append_assoc]

theorem flattenList_all_none {l : List (Option Err)}
    (h : l.all Option.isNone = true) : flattenList l = [] := by
  induction l with
  | nil => rw [flattenList]
  | cons hd tl ih =>
      cases hd with
      | none => rw [flattenList]; exact ih (by simpa using h)
      | some e => simp at h

theorem NewMultiError_eq (l : List (Option Err)) :
    NewMultiError l =
      if l.all Option.isNone then none else some (flattenList l) := by
  unfold NewMultiError
  induction l with
  | nil => simp [newMultiGo]
  | cons hd tl ih =>
      cases hd with
      | none =>
          rw [newMultiGo, ih]
          conv_rhs => rw [flattenList]
          simp only [List.all_cons, Option.isNone_none, Bool.true_and]
      | some e =>
          rw [newMultiGo]
          simp only [Option.getD_none, List.nil_append, List.all_cons,
            Option.isNone_some, Bool.false_and, Bool.false_eq_true, if_false]
          have he := flattenOne_eq e
          rcases h : unwrapMultiErr e with _ | mm
          · rw [h] at he
            dsimp only at he ⊢
            conv_rhs => rw [flattenList]
            rw [newMultiGo_some, he]
          · rw [h] at he
            dsimp only at he ⊢
            conv_rhs => rw [flattenList]
            rw [newMultiGo_some, he]

theorem Errors_some (es : List Err) : MultiError.Errors (some es) = es := by
  cases es <;> simp [MultiError.Errors]

theorem Errors_NewMultiError (l : List (Option Err)) :
    MultiError.Errors (NewMultiError l) = flattenList l := by
  rw [NewMultiError_eq]
  split
  · rw [MultiError.Errors, flattenList_all_none (by assumption)]
  · rw [Errors_some]

theorem specLeaves_leaf {e : Err} (h : unwrapMultiErr e = none) :
    specLeaves e = [e] := by
  rw [specLeaves]
  split <;> simp_all

theorem specLeaves_eq_aux :
    (∀ e, multiWF e = true → specLeaves e = flattenOne e) ∧
    (∀ lo, multiWFList lo = true → specLeavesLO lo = flattenList lo) ∧
    (∀ l, (∀ x ∈ l, isMultiErr x = false) → specLeavesL l = l) := by
  apply specLeaves.mutual_induct
    (fun e => multiWF e = true → specLeaves e = flattenOne e)
    (fun lo => multiWFList lo = true → specLeavesLO lo = flattenList lo)
    (fun l => (∀ x ∈ l, isMultiErr x = false) → specLeavesL l = l)
  · intro e h hwf
    rw [specLeaves, flattenOne_eq, h]
  · intro e es h ih hwf
    have hm := multiWF_unwrap hwf h
    rw [multiWF] at hm
    rw [specLeaves, flattenOne_eq, h]
    simp only [flatten]
    apply ih
    intro x hx
    have := List.all_eq_true.mp hm x hx
    simpa using this
  · intro e m es h ih hwf
    have hm := multiWF_unwrap hwf h
    rw [multiWF] at hm
    rw [specLeaves, flattenOne_eq, h]
    simp only [flatten]
    exact ih hm
  · intro e v hmu hcu hv hwf
    rw [specLeaves, flattenOne_eq, hv]
    cases v with
    | base m => simp [flatten]
    | wrap m i => simp [flatten]
    | wst p i => simp [flatten]
    | wfr f i => simp [flatten]
    | multi es => exact absurd rfl (hmu es)
    | custom m es => exact absurd rfl (hcu m es)
  · intro _
    rw [specLeavesLO, flattenList]
  · intro es ih hwf
    rw [multiWFList] at hwf
    rw [specLeavesLO, flattenList, ih hwf]
  · intro e es ih1 ih2 hwf
    rw [multiWFList, Bool.and_eq_true] at hwf
    rw [specLeavesLO, flattenList, ih1 hwf.1, ih2 hwf.2]
  · intro _
    rw [specLeavesL]
  · intro e es ih1 ih2 hall
    have he : isMultiErr e = false := hall e (List.mem_cons_self _ _)
    rw [isMultiErr_false_iff] at he
    rw [specLeavesL, ih2 fun x hx => hall x (List.mem_cons_of_mem _ hx),
      specLeaves_leaf he]
    rfl

theorem newMulti_flat {errors : List (Option Err)}
    (hwf : ∀ e, some e ∈ errors → multiWF e = true) :
    ∀ es, NewMultiError errors = some es → ∀ x ∈ es, isMultiErr x = false := by
  intro es hes
  rw [NewMultiError_eq] at hes
  split at hes
  · cases hes
  · cases hes
    exact flattenList_flat (multiWFList_of_forall hwf)

theorem append_flat {a b : Option Err}
    (ha : ∀ e, a = some e → multiWF e = true)
    (hb : ∀ e, b = some e → multiWF e = true) :
    ∀ es, Append a b = some es → ∀ x ∈ es, isMultiErr x = false := by
  intro es hes x hx
  cases a with
  | none =>
      cases b with
      | none => cases hes
      | some ae =>
          rw [Append] at hes
          rcases h : unwrapMultiErr ae with _ | mm
          · rw [h] at hes
            simp only [Option.some.injEq] at hes
            subst hes
            simp only [List.mem_singleton] at hx
            subst hx
            rw [isMultiErr_false_iff]
            exact h
          · rw [h] at hes
            simp only [Option.some.injEq] at hes
            subst hes
            simp only [List.mem_singleton] at hx
            subst hx
            rfl
  | some re =>
      cases b with
      | none =>
          rw [Append] at hes
          rcases h : unwrapMultiErr re with _ | mm
          · rw [h] at hes
            simp only [Option.some.injEq] at hes
            subst hes
            simp only [List.mem_singleton] at hx
            subst hx
            rw [isMultiErr_false_iff]
            exact h
          · rw [h] at hes
            simp only [Option.some.injEq] at hes
            subst hes
            exact flatten_flat (ha re rfl) h x hx
      | some ae =>
          rw [Append] at hes
          have hae2 : ∀ y,
              (match unwrapMultiErr ae with
               | some _ => New appendMisuseText
               | none => ae) = y → isMultiErr y = false := by
            intro y hy
            rcases h2 : unwrapMultiErr ae with _ | mm2
            · rw [h2] at hy
              subst hy
              rw [isMultiErr_false_iff]
              exact h2
            · rw [h2] at hy
              subst hy
              rfl
          rcases h : unwrapMultiErr re with _ | mm
          · rw [h] at hes
            simp only [Option.some.injEq] at hes
            subst hes
            simp only [List.mem_cons, List.not_mem_nil, or_false] at hx
            rcases hx with hx | hx
            · subst hx
              rw [isMultiErr_false_iff]
              exact h
            · subst hx
              exact hae2 _ rfl
          · rw [h] at hes
            simp only [Option.some.injEq] at hes
            subst hes
            rcases List.mem_append.mp hx with hx | hx
            · exact flatten_flat (ha re rfl) h x hx
            · simp only [List.mem_singleton] at hx
              subst hx
              exact hae2 _ rfl

theorem errorOrNil_multi_flat {merr : Option (List Err)}
    (hflat : ∀ es, merr = some es → ∀ x ∈ es, isMultiErr x = false) :
    ∀ es, MultiError.ErrorOrNil merr = some (Err.multi es) →
      ∀ x ∈ es, isMultiErr x = false := by
  intro es hes x hx
  cases merr with
  | none =>
      rw [show MultiError.ErrorOrNil none = none from rfl] at hes
      cases hes
  | some l =>
      rw [MultiError.ErrorOrNil, Errors_some] at hes
      split at hes
      · cases hes
      · split at hes
        · rename_i h0 h1
          simp only [MultiError.rawErrors] at hes
          cases l with
          | nil => cases hes
          | cons hd tl =>
              simp only [List.head?_cons, Option.some.injEq] at hes
              have : isMultiErr hd = false :=
                hflat _ rfl hd (List.mem_cons_self _ _)
              rw [hes] at this
              simp [isMultiErr, unwrapMultiErr] at this
        · dsimp [Option.map] at hes
          injection hes with hes
          injection hes with hes
          subst hes
          exact hflat _ rfl x hx

theorem appendInto_flat {a b : Option Err}
    (ha : ∀ e, a = some e → multiWF e = true)
    (hb : ∀ e, b = some e → multiWF e = true) :
    ∀ es, (AppendInto a b).1 = some (Err.multi es) →
      ∀ x ∈ es, isMultiErr x = false := by
  cases b with
  | none =>
      simp only [AppendInto]
      apply errorOrNil_multi_flat
      apply newMulti_flat
      intro e he
      simp only [List.mem_singleton] at he
      exact ha e he.symm
  | some ae =>
      simp only [AppendInto]
      apply errorOrNil_multi_flat
      apply append_flat ha
      intro e he
      simp only [Option.some.injEq] at he
      subst he
      rcases h2 : unwrapMultiErr ae with _ | mm2 <;> dsimp only
      · apply leaf_multiWF
        rw [isMultiErr_false_iff]
        exact h2
      · rw [show New appendIntoMisuseText = Err.base appendIntoMisuseText from rfl,
          multiWF]

theorem errIsList_any (l : List Err) (target : Err) :
    errIsList l target = l.any (fun e => errIs e target) := by
  induction l with
  | nil => rw [errIsList]; rfl
  | cons e es ih => rw [errIsList, ih, List.any_cons]

theorem errAsList_findSome (p : Err → Bool) (l : List Err) :
    errAsList p l = l.findSome? (errAs p) := by
  induction l with
  | nil => rw [errAsList]; rfl
  | cons e es ih =>
      rw [errAsList, List.findSome?_cons]
      rcases h : errAs p e with _ | v <;> simp only [ih]

theorem errAsList_isSome_iff (p : Err → Bool) (l : List Err) :
    (errAsList p l).isSome = true ↔ ∃ e ∈ l, (errAs p e).isSome = true := by
  induction l with
  | nil => rw [errAsList]; simp
  | cons e es ih =>
      rw [errAsList]
      rcases h : errAs p e with _ | v
      · simp [ih, h]
      · simp [h]

/-- C1: every `MultiError` produced through the public operations
(`NewMultiError`, `Append`, `AppendInto`) has a component list in which
no element is a `MultiError` or exposes the multiple-errors capability
anywhere in its chain: construction and append absorb such candidates'
components recursively instead of storing the candidate (stated under
the invariant `multiWF` that every `MultiError` inside the inputs was
itself publicly constructed, which Go's unexported `errors` field
enforces). -/
theorem claim_C1_flat_invariant :
    (∀ (errors : List (Option Err)),
        (∀ e, some e ∈ errors → multiWF e = true) →
        ∀ es, NewMultiError errors = some es → ∀ x ∈ es, isMultiErr x = false)
  ∧ (∀ (a b : Option Err),
        (∀ e, a = some e → multiWF e = true) →
        (∀ e, b = some e → multiWF e = true) →
        ∀ es, Append a b = some es → ∀ x ∈ es, isMultiErr x = false)
  ∧ (∀ (a b : Option Err),
        (∀ e, a = some e → multiWF e = true) →
        (∀ e, b = some e → multiWF e = true) →
        ∀ es, (AppendInto a b).1 = some (Err.multi es) →
          ∀ x ∈ es, isMultiErr x = false) :=
  ⟨fun _ hwf => newMulti_flat hwf,
   fun _ _ ha hb => append_flat ha hb,
   fun _ _ ha hb => appendInto_flat ha hb⟩

theorem claim_C1_flat_invariant_witness :
    NewMultiError [some (Err.custom "m" [some (Err.multi [Err.base "x"]), none])] =
      some [Err.base "x"] ∧
    (∀ x ∈ [Err.base "x"], isMultiErr x = false) := by
  have hnew : NewMultiError
      [some (Err.custom "m" [some (Err.multi [Err.base "x"]), none])] =
      some [Err.base "x"] := by
    simp [NewMultiError, newMultiGo, unwrapMultiErr, flatten, flattenList,
      flattenOne_eq]
  refine ⟨hnew, claim_C1_flat_invariant.1 _ ?_ _ hnew⟩
  intro e he
  simp only [List.mem_singleton, Option.some.injEq] at he
  subst he
  simp [multiWF, multiWFList, isMultiErr, unwrapMultiErr]

/-- C2 counterexample: the claim asserts
`NewMultiError(nil, a, nil, b, nil)` has exactly the components `[a, b]`
for every non-nil `a` and `b`; taking `a` to be the `MultiError`
`NewMultiError(x)` (i.e. `Err.multi [x]`), the constructor absorbs its
component instead of storing `a`, so the component list is `[x, b]`,
not `[a, b]`. -/
theorem claim_C2_counterexample :
    MultiError.Errors (NewMultiError
        [none, some (Err.multi [Err.base "x"]), none, some (Err.base "b"), none]) =
      [Err.base "x", Err.base "b"] ∧
    MultiError.Errors (NewMultiError
        [none, some (Err.multi [Err.base "x"]), none, some (Err.base "b"), none]) ≠
      [Err.multi [Err.base "x"], Err.base "b"] := by
  constructor
  · rfl
  · intro h
    rw [show MultiError.Errors (NewMultiError
        [none, some (Err.multi [Err.base "x"]), none, some (Err.base "b"), none]) =
        [Err.base "x", Err.base "b"] from rfl] at h
    simp at h

/-- C2 (amended): for candidate lists whose `MultiError`s are publicly
constructed, `NewMultiError` drops nil candidates at every nesting level
and expands multi-error candidates depth-first in place, so the
component list is exactly the non-nil leaf errors in left-to-right
discovery order (`specLeavesLO`), the same list as constructing directly
from those leaves; and `NewMultiError(nil, a, nil, b, nil)` has exactly
the components `[a, b]` for non-nil `a`, `b` that do not themselves
expose the multiple-errors capability. -/
theorem claim_C2_flatten_leaves :
    (∀ (errors : List (Option Err)),
        (∀ e, some e ∈ errors → multiWF e = true) →
        MultiError.Errors (NewMultiError errors) = specLeavesLO errors)
  ∧ (∀ (leaves : List Err), (∀ x ∈ leaves, isMultiErr x = false) →
        MultiError.Errors (NewMultiError (leaves.map some)) = leaves)
  ∧ (∀ a b : Err, isMultiErr a = false → isMultiErr b = false →
        MultiError.Errors (NewMultiError [none, some a, none, some b, none]) =
          [a, b]) := by
  refine ⟨?_, ?_, ?_⟩
  · intro errors hwf
    rw [Errors_NewMultiError, specLeaves_eq_aux.2.1 _ (multiWFList_of_forall hwf)]
  · intro leaves hl
    rw [Errors_NewMultiError]
    induction leaves with
    | nil => rw [List.map_nil, flattenList]
    | cons e rest ih =>
        rw [List.map_cons, flattenList, flattenOne_eq,
          isMultiErr_false_iff.mp (hl e (List.mem_cons_self _ _)),
          ih fun x hx => hl x (List.mem_cons_of_mem _ hx)]
        rfl
  · intro a b ha hb
    rw [isMultiErr_false_iff] at ha hb
    simp [NewMultiError, newMultiGo, ha, hb, Errors_some]

theorem claim_C2_flatten_leaves_witness :
    MultiError.Errors (NewMultiError
        [some (Err.custom "m" [some (Err.base "x"), none]), none,
         some (Err.base "y")]) =
      specLeavesLO
        [some (Err.custom "m" [some (Err.base "x"), none]), none,
         some (Err.base "y")] ∧
    MultiError.Errors (NewMultiError [none, some (Err.base "a"), none,
        some (Err.base "b"), none]) = [Err.base "a", Err.base "b"] := by
  constructor
  · apply claim_C2_flatten_leaves.1
    intro e he
    simp only [List.mem_cons, List.not_mem_nil, or_false, Option.some.injEq,
      reduceCtorEq, false_or] at he
    rcases he with he | he <;> subst he <;>
      simp [multiWF, multiWFList, isMultiErr, unwrapMultiErr]
  · exact claim_C2_flatten_leaves.2.2 _ _ rfl rfl

/-- C3: the collapsing accessor `ErrorOrNil` returns nil for zero
components, the single component itself for exactly one component, and
the `MultiError` itself (typed as an error) for two or more. -/
theorem claim_C3_error_or_nil (merr : Option (List Err)) :
    (MultiError.Len merr = 0 → MultiError.ErrorOrNil merr = none)
  ∧ (∀ e, MultiError.Errors merr = [e] → MultiError.ErrorOrNil merr = some e)
  ∧ (2 ≤ MultiError.Len merr →
      MultiError.ErrorOrNil merr = some (Err.multi (MultiError.Errors merr))) := by
  refine ⟨?_, ?_, ?_⟩
  · intro h
    cases merr with
    | none => rfl
    | some es =>
        rw [MultiError.Len] at h
        rw [MultiError.ErrorOrNil, Errors_some]
        simp [h, List.length_eq_zero.mp h]
  · intro e h
    cases merr with
    | none => simp [MultiError.Errors] at h
    | some es =>
        rw [Errors_some] at h
        subst h
        rfl
  · intro h
    cases merr with
    | none => simp [MultiError.Len] at h
    | some es =>
        rw [MultiError.Len] at h
        rw [MultiError.ErrorOrNil, Errors_some]
        have h0 : ¬ es.length = 0 := by omega
        have h1 : ¬ es.length = 1 := by omega
        simp [h0, h1, Errors_some]

theorem claim_C3_error_or_nil_witness :
    MultiError.ErrorOrNil (some []) = none ∧
    MultiError.ErrorOrNil (some [Err.base "a"]) = some (Err.base "a") ∧
    MultiError.ErrorOrNil (some [Err.base "a", Err.base "b"]) =
      some (Err.multi (MultiError.Errors (some [Err.base "a", Err.base "b"]))) :=
  ⟨(claim_C3_error_or_nil (some [])).1 rfl,
   (claim_C3_error_or_nil (some [Err.base "a"])).2.1 _ rfl,
   (claim_C3_error_or_nil (some [Err.base "a", Err.base "b"])).2.2 (by decide)⟩

/-- C5 counterexample: the claim asserts that for EVERY non-nil error
`a`, `Append(a, m)` with a multi-error second operand yields a
2-component `MultiError` whose first component is `a`; taking `a` itself
to be a `MultiError` with two components, `Append` flattens it, so the
result has 3 components and its first component is not `a`. -/
theorem claim_C5_counterexample :
    MultiError.Len (Append (some (Err.multi [Err.base "x", Err.base "y"]))
        (some (Err.multi [Err.base "z"]))) = 3 ∧
    ¬ (MultiError.Len (Append (some (Err.multi [Err.base "x", Err.base "y"]))
        (some (Err.multi [Err.base "z"]))) = 2 ∧
       MultiError.ErrorN (Append (some (Err.multi [Err.base "x", Err.base "y"]))
        (some (Err.multi [Err.base "z"]))) 0 =
          some (Err.multi [Err.base "x", Err.base "y"])) := by
  constructor
  · rfl
  · intro h
    have h2 := h.1
    rw [show MultiError.Len (Append (some (Err.multi [Err.base "x", Err.base "y"]))
        (some (Err.multi [Err.base "z"]))) = 3 from rfl] at h2
    omega

/-- C5 (amended): for every non-nil error `a` whose chain does not hold
a multi error, and every second operand whose chain does, `Append`
returns the 2-component `MultiError` `[a, New(misuse text)]`: the first
component is `a` and the second component's message is the fixed misuse
text, not the operand's content. -/
theorem claim_C5_append_misuse (a b : Err)
    (ha : isMultiErr a = false) (hb : isMultiErr b = true) :
    Append (some a) (some b) = some [a, New appendMisuseText] ∧
    errMsg (New appendMisuseText) =
      "errors.Append used incorrectly: second parameter may not be a multiError" := by
  rw [isMultiErr_false_iff] at ha
  rw [isMultiErr] at hb
  rcases hb2 : unwrapMultiErr b with _ | mm
  · rw [hb2] at hb
    simp at hb
  · constructor
    · rw [Append]
      rw [hb2, ha]
    · rw [show New appendMisuseText = Err.base appendMisuseText from rfl, errMsg]
      rfl

theorem claim_C5_append_misuse_witness :
    isMultiErr (Err.base "a") = false ∧
    isMultiErr (Err.multi [Err.base "b"]) = true ∧
    Append (some (Err.base "a")) (some (Err.multi [Err.base "b"])) =
      some [Err.base "a", New appendMisuseText] :=
  ⟨rfl, rfl, (claim_C5_append_misuse (Err.base "a") (Err.multi [Err.base "b"])
    rfl rfl).1⟩

/-- C6: matching against a `MultiError` goes through the component-list
traversal: the `Unwrap` method always returns nil, the `Is` method
succeeds exactly when some component matches the target (components in
supply order), and the `As` method returns the first component match
(`findSome?` over the components in order), succeeding exactly when some
component matches. -/
theorem claim_C6_matching (merr : Option (List Err)) (target : Err)
    (p : Err → Bool) :
    MultiError.Unwrap merr = none
  ∧ (MultiError.Is merr target = true ↔
      ∃ e ∈ MultiError.Errors merr, errIs e target = true)
  ∧ MultiError.As merr p = (MultiError.Errors merr).findSome? (errAs p)
  ∧ ((MultiError.As merr p).isSome = true ↔
      ∃ e ∈ MultiError.Errors merr, (errAs p e).isSome = true) :=
  ⟨rfl,
   by rw [MultiError.Is, errIsList_any]; simp [List.any_eq_true],
   errAsList_findSome p (MultiError.Errors merr),
   errAsList_isSome_iff p (MultiError.Errors merr)⟩

/-- C10: every `MultiError` accessor is total on a nil receiver
(`Errors` returns nil, `Len` returns 0, `ErrorN` returns nil,
`ErrorOrNil` returns nil), and `ErrorN` returns nil on every
out-of-range index. -/
theorem claim_C10_total_accessors :
    (MultiError.Errors none = [] ∧ MultiError.Len none = 0 ∧
      (∀ n : Int, MultiError.ErrorN none n = none) ∧
      MultiError.ErrorOrNil none = none)
  ∧ (∀ (merr : Option (List Err)) (n : Int),
      n < 0 ∨ (MultiError.Len merr : Int) ≤ n →
      MultiError.ErrorN merr n = none) := by
  refine ⟨⟨rfl, rfl, fun n => rfl, rfl⟩, ?_⟩
  intro merr n h
  cases merr with
  | none => rfl
  | some es =>
      rw [MultiError.Len] at h
      have hcond : (decide (n < 0) || decide ((es.length : Int) ≤ n)) = true := by
        rcases h with h | h <;> simp [h]
      rw [MultiError.ErrorN]
      simp only [hcond, if_true]

theorem claim_C10_total_accessors_witness :
    MultiError.ErrorN (some [Err.base "a"]) (-1) = none ∧
    MultiError.ErrorN (some [Err.base "a"]) 1 = none :=
  ⟨claim_C10_total_accessors.2 (some [Err.base "a"]) (-1) (Or.inl (by decide)),
   claim_C10_total_accessors.2 (some [Err.base "a"]) 1 (Or.inr (by decide))⟩

/-- Does the error's concrete type implement `stackTracer`
(`StackTrace() []uintptr`)?  Only `withStackTrace` among the modelled
variants. -/
def isStackTracer : Err → Bool
  | .wst _ _ => true
  | _ => false

/-- Does the error's concrete type implement `framer` (`Frames() Frames`)?
`withStackTrace` and `withFrames`. -/
def isFramer : Err → Bool
  | .wst _ _ => true
  | .wfr _ _ => true
  | _ => false

/-- The `StackTrace()` method of a `stackTracer` node: the captured
program counters. -/
def stackTraceOf : Err → List Nat
  | .wst pcs _ => pcs
  | _ => []

/-- Embedding of `frameFromPC` (frames.go): a frame with only the
program counter set. -/
def frameFromPC (pc : Nat) : frame := ⟨pc, "", "", 0⟩

/-- Embedding of `framesFromPCs` (frames.go lines 546-552). -/
def framesFromPCs (pcs : List Nat) : List frame := pcs.map frameFromPC

/-- The `Frames()` method of a `framer` node: `withStackTrace` returns
its captured pc-frames, `withFrames` returns its stored frames. -/
def framesOf : Err → List frame
  | .wst pcs _ => framesFromPCs pcs
  | .wfr frs _ => frs
  | _ => []

/-- Embedding of `prependFrame` (errors.go lines 539-544): the source
appends `frames` to `slice` and then uses two overlapping `copy` calls
(Go `copy` has memmove semantics) to rotate, which puts `frames` in
front of the original `slice`. -/
def prependFrame (slice frames : List frame) : List frame := frames ++ slice

theorem sizeOf_errUnwrap_lt (e : Err) : sizeOf (errUnwrap e) < sizeOf (some e) := by
  cases e <;> simp [errUnwrap] <;> omega

/-- The loop of `FramesFrom` (errors.go lines 515-537), with the mutable
`traceFound` flag and accumulated `ff` made explicit.  The source sets
`traceFound` as soon as the node is a `stackTracer` and then branches on
it, so the branch conditions below use the updated flag, exactly as the
source reads. -/
def framesFromGo (traceFound : Bool) (ff : List frame) : Option Err → List frame
  | none => ff
  | some e =>
      let errHasTrace := isStackTracer e
      let traceFound2 := traceFound || errHasTrace
      let ff2 :=
        if isFramer e then
          if traceFound2 && !errHasTrace then ff
          else if errHasTrace then framesFromPCs (stackTraceOf e)
          else prependFrame ff (framesOf e)
        else if errHasTrace then framesFromPCs (stackTraceOf e)
        else ff
      framesFromGo traceFound2 ff2 (errUnwrap e)
termination_by oe => sizeOf oe
decreasing_by
  exact sizeOf_errUnwrap_lt _

/-- Embedding of `FramesFrom` (errors.go lines 515-537). -/
def FramesFrom (err : Option Err) : List frame := framesFromGo false [] err

/-- Specification-side description: the deepest stack trace in the
unwrap chain, if any (`none` when no node of the chain is a
`stackTracer`). -/
def deepestTrace : Err → Option (List Nat)
  | .wrap _ inner => deepestTrace inner
  | .wst pcs inner => (deepestTrace inner).getD pcs
  | .wfr _ inner => deepestTrace inner
  | _ => none

/-- Specification-side description of the no-trace result: walking
outward-in, each `framer` node's frames are prepended to the
accumulated list, so the final order is deepest-node frames first. -/
def prependedFrames : Err → List frame
  | .wrap _ inner => prependedFrames inner
  | .wst pcs inner => prependedFrames inner ++ framesOf (.wst pcs inner)
  | .wfr frs inner => prependedFrames inner ++ frs
  | _ => []

theorem errUnwrap_none_of_other {e : Err}
    (hw : ∀ m i, e = Err.wrap m i → False)
    (hs : ∀ p i, e = Err.wst p i → False)
    (hf : ∀ f i, e = Err.wfr f i → False) : errUnwrap e = none := by
  cases e with
  | wrap m i => exact absurd rfl (hw m i)
  | wst p i => exact absurd rfl (hs p i)
  | wfr f i => exact absurd rfl (hf f i)
  | base m => rfl
  | multi es => rfl
  | custom m es => rfl

theorem framesFromGo_wrap (tf : Bool) (ff : List frame) (m : String) (i : Err) :
    framesFromGo tf ff (some (Err.wrap m i)) = framesFromGo tf ff (some i) := by
  rw [framesFromGo]
  simp [isStackTracer, isFramer, errUnwrap]

theorem framesFromGo_wst (tf : Bool) (ff : List frame) (p : List Nat) (i : Err) :
    framesFromGo tf ff (some (Err.wst p i)) =
      framesFromGo true (framesFromPCs p) (some i) := by
  rw [framesFromGo]
  simp [isStackTracer, isFramer, errUnwrap, stackTraceOf]

theorem framesFromGo_wfr (tf : Bool) (ff : List frame) (f : List frame) (i : Err) :
    framesFromGo tf ff (some (Err.wfr f i)) =
      framesFromGo tf (if tf then ff else f ++ ff) (some i) := by
  rw [framesFromGo]
  cases tf <;> simp [isStackTracer, isFramer, errUnwrap, framesOf, prependFrame]

theorem framesFromGo_leaf (tf : Bool) (ff : List frame) {e : Err}
    (h : errUnwrap e = none) (hst : isStackTracer e = false)
    (hfr : isFramer e = false) :
    framesFromGo tf ff (some e) = ff := by
  rw [framesFromGo]
  simp only [h, hst, hfr, Bool.or_false, Bool.false_eq_true, if_false]
  rw [framesFromGo]

theorem framesFromGo_trace_found {e : Err} (hdt : deepestTrace e = none) :
    ∀ ff, framesFromGo true ff (some e) = ff := by
  induction e using deepestTrace.induct with
  | case1 m i ih =>
      intro ff
      rw [deepestTrace] at hdt
      rw [framesFromGo_wrap]
      exact ih hdt ff
  | case2 p i ih =>
      rw [deepestTrace] at hdt
      rcases h : deepestTrace i with _ | t <;> rw [h] at hdt <;> simp at hdt
  | case3 f i ih =>
      intro ff
      rw [deepestTrace] at hdt
      rw [framesFromGo_wfr]
      simp only [if_true]
      exact ih hdt ff
  | case4 e hw hs hf =>
      intro ff
      have hst : isStackTracer e = false := by
        cases e <;> first
          | rfl
          | exact absurd rfl (hs _ _)
      have hfr : isFramer e = false := by
        cases e <;> first
          | rfl
          | exact absurd rfl (hs _ _)
          | exact absurd rfl (hf _ _)
      exact framesFromGo_leaf true ff (errUnwrap_none_of_other hw hs hf) hst hfr

theorem framesFromGo_deepest {e : Err} {pcs : List Nat}
    (hdt : deepestTrace e = some pcs) :
    ∀ tf ff, framesFromGo tf ff (some e) = framesFromPCs pcs := by
  induction e using deepestTrace.induct with
  | case1 m i ih =>
      intro tf ff
      rw [deepestTrace] at hdt
      rw [framesFromGo_wrap]
      exact ih hdt tf ff
  | case2 p i ih =>
      intro tf ff
      rw [deepestTrace] at hdt
      rw [framesFromGo_wst]
      rcases h : deepestTrace i with _ | t
      · rw [h] at hdt
        simp only [Option.getD_none] at hdt
        cases hdt
        exact framesFromGo_trace_found h _
      · rw [h] at hdt
        simp only [Option.getD_some] at hdt
        cases hdt
        exact ih h true _
  | case3 f i ih =>
      intro tf ff
      rw [deepestTrace] at hdt
      rw [framesFromGo_wfr]
      exact ih hdt tf _
  | case4 e hw hs hf =>
      intro tf ff
      rw [deepestTrace.eq_def] at hdt
      cases e with
      | wrap m i => exact absurd rfl (hw m i)
      | wst p i => exact absurd rfl (hs p i)
      | wfr f i => exact absurd rfl (hf f i)
      | base m => cases hdt
      | multi es => cases hdt
      | custom m es => cases hdt

theorem framesFromGo_no_trace {e : Err} (hdt : deepestTrace e = none) :
    ∀ ff, framesFromGo false ff (some e) = prependedFrames e ++ ff := by
  induction e using deepestTrace.induct with
  | case1 m i ih =>
      intro ff
      rw [deepestTrace] at hdt
      rw [framesFromGo_wrap, prependedFrames]
      exact ih hdt ff
  | case2 p i ih =>
      rw [deepestTrace] at hdt
      rcases h : deepestTrace i with _ | t <;> rw [h] at hdt <;> simp at hdt
  | case3 f i ih =>
      intro ff
      rw [deepestTrace] at hdt
      rw [framesFromGo_wfr, prependedFrames]
      simp only [Bool.false_eq_true, if_false]
      rw [ih hdt, List.append_assoc]
  | case4 e hw hs hf =>
      intro ff
      have hst : isStackTracer e = false := by
        cases e <;> first
          | rfl
          | exact absurd rfl (hs _ _)
      have hfr : isFramer e = false := by
        cases e <;> first
          | rfl
          | exact absurd rfl (hs _ _)
          | exact absurd rfl (hf _ _)
      have hpf : prependedFrames e = [] := by
        cases e <;> first
          | rfl
          | exact absurd rfl (hw _ _)
          | exact absurd rfl (hs _ _)
          | exact absurd rfl (hf _ _)
      rw [framesFromGo_leaf false ff (errUnwrap_none_of_other hw hs hf) hst hfr,
        hpf, List.nil_append]

/-- C4: `FramesFrom` walks outermost to root; every stack-trace node
replaces the accumulated frames, so when the chain holds any stack
trace, the deepest one is returned alone and every single-frame
attachment is ignored; with no stack trace, each `framer` node's frames
are prepended to the accumulated list (deepest first in the result).
In particular, for the chain single-frame / full-stack / single-frame /
root, the result is exactly the full-stack node's captured frames. -/
theorem claim_C4_frames_from :
    (∀ (e : Err) (pcs : List Nat), deepestTrace e = some pcs →
        FramesFrom (some e) = framesFromPCs pcs)
  ∧ (∀ e : Err, deepestTrace e = none →
        FramesFrom (some e) = prependedFrames e)
  ∧ (∀ (f1 f3 : frame) (pcs : List Nat) (msg : String),
        FramesFrom (some (Err.wfr [f1] (Err.wst pcs
          (Err.wfr [f3] (Err.base msg))))) = framesFromPCs pcs) := by
  refine ⟨?_, ?_, ?_⟩
  · intro e pcs hdt
    exact framesFromGo_deepest hdt false []
  · intro e hdt
    rw [FramesFrom, framesFromGo_no_trace hdt, List.append_nil]
  · intro f1 f3 pcs msg
    exact @framesFromGo_deepest
      (Err.wfr [f1] (Err.wst pcs (Err.wfr [f3] (Err.base msg)))) pcs rfl false []

theorem claim_C4_frames_from_witness :
    deepestTrace (Err.wfr [⟨0, "f1", "a.go", 1⟩] (Err.wst [7]
      (Err.wfr [⟨0, "f3", "b.go", 2⟩] (Err.base "root")))) = some [7] ∧
    FramesFrom (some (Err.wfr [⟨0, "f1", "a.go", 1⟩] (Err.wst [7]
      (Err.wfr [⟨0, "f3", "b.go", 2⟩] (Err.base "root"))))) =
      framesFromPCs [7] :=
  ⟨rfl, claim_C4_frames_from.1 _ [7] rfl⟩

/-- ASCII subset of `unicode.IsSpace`, as used by `bytes.TrimSpace`
(the model does not carry the non-ASCII space code points, which no
claim exercises). -/
def isSpaceGo (c : Char) : Bool :=
  c = ' ' || c = '\t' || c = '\n' || c = '\x0b' || c = '\x0c' || c = '\r'

/-- Embedding of `bytes.TrimSpace`: strip leading and trailing
whitespace. -/
def trimChars (l : List Char) : List Char :=
  ((l.dropWhile isSpaceGo).reverse.dropWhile isSpaceGo).reverse

/-- Embedding of `bytes.Split(l, sep)` for a one-character separator:
all subslices between separators, including empty ones. -/
def splitOnChar (c : Char) : List Char → List (List Char)
  | [] => [[]]
  | x :: xs =>
      if x = c then [] :: splitOnChar c xs
      else
        match splitOnChar c xs with
        | [] => [[x]]
        | g :: gs => (x :: g) :: gs

/-- Embedding of `bytes.IndexByte`: index of the first occurrence
(`none` for Go's -1). -/
def idxOfChar (c : Char) : List Char → Option Nat
  | [] => none
  | x :: xs => if x = c then some 0 else (idxOfChar c xs).map (· + 1)

/-- Embedding of `bytes.Index(l, "\n\t")`: index of the first
newline-tab pair (`none` for Go's -1). -/
def idxOfNLTab : List Char → Option Nat
  | '\n' :: '\t' :: _ => some 0
  | _ :: xs => (idxOfNLTab xs).map (· + 1)
  | [] => none

/-- Embedding of the `unescaper` replacer (frames.go line 179):
`strings.NewReplacer` scans left to right, trying the patterns
backslash-t, backslash-n, backslash-quote, backslash-backslash in order
at each position; an unmatched byte is copied through. -/
def unescapeChars : List Char → List Char
  | [] => []
  | '\\' :: 't' :: r2 => '\t' :: unescapeChars r2
  | '\\' :: 'n' :: r2 => '\n' :: unescapeChars r2
  | '\\' :: '"' :: r2 => '"' :: unescapeChars r2
  | '\\' :: '\\' :: r2 => '\\' :: unescapeChars r2
  | c :: rest => c :: unescapeChars rest

/-- Embedding of the `escaper` replacer (frames.go line 176): backslash,
tab, newline and double quote become two-character escape sequences. -/
def escapeChars : List Char → List Char
  | [] => []
  | c :: rest =>
      if c = '\\' then '\\' :: '\\' :: escapeChars rest
      else if c = '\t' then '\\' :: 't' :: escapeChars rest
      else if c = '\n' then '\\' :: 'n' :: escapeChars rest
      else if c = '"' then '\\' :: '"' :: escapeChars rest
      else c :: escapeChars rest

/-- Decimal digit to value (`none` for a non-digit). -/
def digToNat (c : Char) : Option Nat :=
  if 48 ≤ c.toNat ∧ c.toNat ≤ 57 then some (c.toNat - 48) else none

/-- Accumulating decimal scan. -/
def natOfDigitsAux (acc : Nat) : List Char → Option Nat
  | [] => some acc
  | c :: cs =>
      match digToNat c with
      | some d => natOfDigitsAux (acc * 10 + d) cs
      | none => none

/-- All-digit decimal parse; `none` on empty input or a non-digit. -/
def natOfDigits : List Char → Option Nat
  | [] => none
  | l => natOfDigitsAux 0 l

/-- Embedding of `strconv.ParseInt(s, 10, 64)` restricted to what the
claims exercise: an optional sign followed by at least one digit
(int64 overflow is not modelled; line numbers stay tiny). -/
def parseIntGo : List Char → Option Int
  | [] => none
  | '+' :: ds => (natOfDigits ds).map Int.ofNat
  | '-' :: ds => (natOfDigits ds).map (fun n => -(n : Int))
  | ds => (natOfDigits ds).map Int.ofNat

/-- The two error sentinels of the text parser (frames.go lines
449-450), each carrying the offending line as the source's wrapping
`fmt.Errorf` does.  Note `errMalformedFrame` is constructed inside the
loop but then overwritten by the final incomplete-frame check, so it
never escapes `framesFromBytes`. -/
inductive ParseErr where
  | incompleteFrame (line : List Char)
  | malformedFrame (line : List Char)
deriving DecidableEq, Repr

/-- The body of the `framesFromBytes` loop (frames.go lines 479-506) for
one two-line pair: trim both lines; if the second line's first colon is
at a positive index, the text after it must parse as an integer (else
`none`, the malformed case) and the text before it becomes the file;
otherwise the whole trimmed line is the file with line number 0.  Both
parts are unescaped. -/
def pairFrame (l1 l2 : List Char) : Option frame :=
  let function := trimChars l1
  let file := trimChars l2
  match idxOfChar ':' file with
  | some i =>
      if 0 < i then
        (parseIntGo (file.drop (i + 1))).map fun n =>
          ⟨0, String.mk (unescapeChars function),
              String.mk (unescapeChars (file.take i)), n⟩
      else
        some ⟨0, String.mk (unescapeChars function),
              String.mk (unescapeChars file), 0⟩
  | none =>
      some ⟨0, String.mk (unescapeChars function),
            String.mk (unescapeChars file), 0⟩

/-- The `framesFromBytes` loop (frames.go lines 477-506): consume line
pairs while at least two lines remain; on a malformed line number record
the malformed-frame error and stop, returning the remaining lines;
frames parsed so far are always kept. -/
def parseLoop : List (List Char) → List frame × Option ParseErr × List (List Char)
  | l1 :: l2 :: rest =>
      match pairFrame l1 l2 with
      | none => ([], some (.malformedFrame l2), l1 :: l2 :: rest)
      | some fr =>
          let (fs, e, rem) := parseLoop rest
          (fr :: fs, e, rem)
  | rest => ([], none, rest)

/-- The loop plus the final check of `framesFromBytes` (lines 508-511):
if lines remain unconsumed — a dangling line, or the pair where the
malformed break happened — the error is set to the incomplete-frame
error carrying the next unconsumed line.  This OVERWRITES a
malformed-frame error recorded by the loop. -/
def framesFromLines (lines : List (List Char)) : List frame × Option ParseErr :=
  match parseLoop lines with
  | (fs, e, []) => (fs, e)
  | (fs, _, l :: _) => (fs, some (.incompleteFrame l))

/-- The prepended-message-context heuristic (frames.go lines 470-475):
when the first newline and the first newline-tab pair are both present,
at positive indices, and at different positions, the first line is
message context and is dropped. -/
def dropContext (byt : List Char) : List Char :=
  match idxOfChar '\n' byt, idxOfNLTab byt with
  | some nl, some nt =>
      if 0 < nl ∧ 0 < nt ∧ nl ≠ nt then byt.drop (nl + 1) else byt
  | _, _ => byt

/-- Embedding of `framesFromBytes` (frames.go lines 462-513). -/
def framesFromBytes (s : String) : List frame × Option ParseErr :=
  let byt := trimChars s.data
  if byt.isEmpty then ([], none)
  else framesFromLines (splitOnChar '\n' (dropContext byt))

/-- Embedding of the exported `FramesFromBytes` (frames.go lines
362-373): on any error the partial frames are DISCARDED and nil frames
are returned with the error. -/
def FramesFromBytes (s : String) : List frame × Option ParseErr :=
  match framesFromBytes s with
  | (_, some e) => ([], some e)
  | (fs, none) => (fs, none)

/-- Interleave a list of line pairs back into a line list. -/
def flattenPairs : List (List Char × List Char) → List (List Char)
  | [] => []
  | (a, b) :: ps => a :: b :: flattenPairs ps

/-- Parse every pair of a pair list; `none` if any pair is malformed. -/
def pairFramesOf : List (List Char × List Char) → Option (List frame)
  | [] => some []
  | (a, b) :: ps =>
      match pairFrame a b with
      | none => none
      | some fr => (pairFramesOf ps).map (fr :: ·)

theorem parseLoop_append {ps : List (List Char × List Char)} {fs : List frame}
    (h : pairFramesOf ps = some fs) (tail : List (List Char)) :
    parseLoop (flattenPairs ps ++ tail) =
      (fs ++ (parseLoop tail).1, (parseLoop tail).2.1, (parseLoop tail).2.2) := by
  induction ps generalizing fs with
  | nil =>
      rw [pairFramesOf] at h
      cases h
      rw [flattenPairs, List.nil_append, List.nil_append]
  | cons p ps ih =>
      obtain ⟨a, b⟩ := p
      rw [pairFramesOf] at h
      rcases hp : pairFrame a b with _ | fr <;> rw [hp] at h
      · cases h
      · rcases hps : pairFramesOf ps with _ | fs2 <;> rw [hps] at h
        · cases h
        · simp only [Option.map_some', Option.some.injEq] at h
          subst h
          rw [flattenPairs, List.cons_append, List.cons_append, parseLoop, hp,
            ih hps]
          rfl

theorem framesFromLines_incomplete {ps : List (List Char × List Char)}
    {fs : List frame} (h : pairFramesOf ps = some fs) (t : List Char) :
    framesFromLines (flattenPairs ps ++ [t]) = (fs, some (.incompleteFrame t)) := by
  rw [framesFromLines, parseLoop_append h,
    show parseLoop [t] = ([], none, [t]) from rfl]
  dsimp only
  rw [List.append_nil]

theorem framesFromLines_malformed {ps : List (List Char × List Char)}
    {fs : List frame} (h : pairFramesOf ps = some fs) {l1 l2 : List Char}
    (hbad : pairFrame l1 l2 = none) (rest : List (List Char)) :
    framesFromLines (flattenPairs ps ++ l1 :: l2 :: rest) =
      (fs, some (.incompleteFrame l1)) := by
  rw [framesFromLines, parseLoop_append h]
  rw [show parseLoop (l1 :: l2 :: rest) =
      ([], some (.malformedFrame l2), l1 :: l2 :: rest) by rw [parseLoop, hbad]]
  dsimp only
  rw [List.append_nil]

theorem framesFromLines_complete {ps : List (List Char × List Char)}
    {fs : List frame} (h : pairFramesOf ps = some fs) :
    framesFromLines (flattenPairs ps) = (fs, none) := by
  have h2 := parseLoop_append h []
  rw [List.append_nil] at h2
  rw [framesFromLines, h2, show parseLoop ([] : List (List Char)) = ([], none, [])
    from rfl]
  dsimp only
  rw [List.append_nil]

/-- C7 counterexample: the claim includes the exported `FramesFromBytes`
entry point among the parsers that "still return" the complete frames
parsed before an error, and says partial results are never discarded on
failure; on the input with one complete pair and a dangling line the
internal parser returns that frame alongside the error, but the
exported `FramesFromBytes` returns nil frames with the error
(frames.go lines 363-366), discarding the partial result. -/
theorem claim_C7_counterexample :
    (framesFromBytes "fn\nfile:1\nextra").1 = [⟨0, "fn", "file", 1⟩] ∧
    (framesFromBytes "fn\nfile:1\nextra").2 =
      some (.incompleteFrame "extra".data) ∧
    (FramesFromBytes "fn\nfile:1\nextra").1 = [] :=
  ⟨rfl, rfl, rfl⟩

/-- C7 (amended): the INTERNAL parser `framesFromBytes` returns partial
results alongside any error: empty (whitespace-only) input yields an
empty result with no error; an incomplete trailing line yields the
incomplete-frame error carrying the partial line while all complete
frames parsed before it are returned; an unparsable line-number suffix
stops parsing and yields an error (the incomplete-frame error carrying
the pair's function line — the loop's malformed-frame error is
overwritten by the final check) while still returning the frames parsed
so far.  The EXPORTED `FramesFromBytes`, however, discards the partial
frames whenever there is an error, returning nil frames with the
error. -/
theorem claim_C7_partial_results :
    (∀ s : String, trimChars s.data = [] → framesFromBytes s = ([], none))
  ∧ (∀ (ps : List (List Char × List Char)) (fs : List frame) (t : List Char),
        pairFramesOf ps = some fs →
        framesFromLines (flattenPairs ps ++ [t]) =
          (fs, some (.incompleteFrame t)))
  ∧ (∀ (ps : List (List Char × List Char)) (fs : List frame)
        (l1 l2 : List Char) (rest : List (List Char)),
        pairFramesOf ps = some fs → pairFrame l1 l2 = none →
        framesFromLines (flattenPairs ps ++ l1 :: l2 :: rest) =
          (fs, some (.incompleteFrame l1)))
  ∧ (∀ (s : String) (fs : List frame) (e : ParseErr),
        framesFromBytes s = (fs, some e) → FramesFromBytes s = ([], some e))
  ∧ (∀ (s : String) (fs : List frame),
        framesFromBytes s = (fs, none) → FramesFromBytes s = (fs, none)) := by
  refine ⟨?_, ?_, ?_, ?_, ?_⟩
  · intro s h
    simp [framesFromBytes, h]
  · intro ps fs t h
    exact framesFromLines_incomplete h t
  · intro ps fs l1 l2 rest h hbad
    exact framesFromLines_malformed h hbad rest
  · intro s fs e h
    rw [FramesFromBytes, h]
  · intro s fs h
    rw [FramesFromBytes, h]

theorem claim_C7_partial_results_witness :
    framesFromBytes "   " = ([], none) ∧
    framesFromLines (flattenPairs [("fn".data, "file:1".data)] ++ ["extra".data]) =
      ([⟨0, "fn", "file", 1⟩], some (.incompleteFrame "extra".data)) ∧
    framesFromLines (flattenPairs [("g".data, "h:2".data)] ++
        "fn".data :: "a:b:12".data :: []) =
      ([⟨0, "g", "h", 2⟩], some (.incompleteFrame "fn".data)) ∧
    FramesFromBytes "fn\nfile:1\nextra" =
      ([], some (.incompleteFrame "extra".data)) :=
  ⟨claim_C7_partial_results.1 "   " rfl,
   claim_C7_partial_results.2.1 [("fn".data, "file:1".data)]
     [⟨0, "fn", "file", 1⟩] "extra".data rfl,
   claim_C7_partial_results.2.2.1 [("g".data, "h:2".data)] [⟨0, "g", "h", 2⟩]
     "fn".data "a:b:12".data [] rfl rfl,
   claim_C7_partial_results.2.2.2.1 "fn\nfile:1\nextra" [⟨0, "fn", "file", 1⟩]
     (.incompleteFrame "extra".data) rfl⟩

/-- C8 counterexample: the claim says the file line is split on the
last-applicable colon, so that for a second line with several colons
everything before the colon preceding the parsable trailing number
becomes the file; on `"fn\na:b:12"` that reading predicts the frame
(file `"a:b"`, line 12) with no error, but the source splits on the
FIRST colon (`bytes.IndexByte`), fails to parse `"b:12"` as a number,
and returns no frames with an error. -/
theorem claim_C8_counterexample :
    framesFromBytes "fn\na:b:12" = ([], some (.incompleteFrame "fn".data)) ∧
    framesFromBytes "fn\na:b:12" ≠ ([⟨0, "fn", "a:b", 12⟩], none) := by
  refine ⟨rfl, ?_⟩
  intro h
  rw [show framesFromBytes "fn\na:b:12" = ([], some (.incompleteFrame "fn".data))
    from rfl] at h
  simp at h

/-- C8 (amended): the parser splits the trimmed second line of a pair on
its FIRST colon when that colon is at a positive index: the text after
the first colon must parse as an integer and becomes the line number,
and the text before it becomes the file (both unescaped); if that text
does not parse as an integer the parse of the pair fails (surfacing as
the incomplete-frame error carrying the function line); when the
trimmed line has no colon, or starts with one, no split happens — the
whole trimmed line is the file and the line number is 0. -/
theorem claim_C8_first_colon (l1 l2 : List Char) :
    (∀ i n, idxOfChar ':' (trimChars l2) = some i → 0 < i →
        parseIntGo ((trimChars l2).drop (i + 1)) = some n →
        framesFromLines [l1, l2] =
          ([⟨0, String.mk (unescapeChars (trimChars l1)),
              String.mk (unescapeChars ((trimChars l2).take i)), n⟩], none))
  ∧ (∀ i, idxOfChar ':' (trimChars l2) = some i → 0 < i →
        parseIntGo ((trimChars l2).drop (i + 1)) = none →
        framesFromLines [l1, l2] = ([], some (.incompleteFrame l1)))
  ∧ ((idxOfChar ':' (trimChars l2) = none ∨
        idxOfChar ':' (trimChars l2) = some 0) →
        framesFromLines [l1, l2] =
          ([⟨0, String.mk (unescapeChars (trimChars l1)),
              String.mk (unescapeChars (trimChars l2)), 0⟩], none)) := by
  refine ⟨?_, ?_, ?_⟩
  · intro i n hi hpos hn
    have hp : pairFrame l1 l2 =
        some ⟨0, String.mk (unescapeChars (trimChars l1)),
          String.mk (unescapeChars ((trimChars l2).take i)), n⟩ := by
      simp [pairFrame, hi, hpos, hn]
    rw [framesFromLines, parseLoop, hp]
    rfl
  · intro i hi hpos hn
    have hp : pairFrame l1 l2 = none := by
      simp [pairFrame, hi, hpos, hn]
    rw [framesFromLines, parseLoop, hp]
  · intro hcase
    have hp : pairFrame l1 l2 =
        some ⟨0, String.mk (unescapeChars (trimChars l1)),
          String.mk (unescapeChars (trimChars l2)), 0⟩ := by
      rcases hcase with h | h <;> simp [pairFrame, h]
    rw [framesFromLines, parseLoop, hp]
    rfl

theorem claim_C8_first_colon_witness :
    framesFromLines ["fn".data, "a:12".data] = ([⟨0, "fn", "a", 12⟩], none) ∧
    framesFromLines ["fn".data, "a:b:12".data] =
      ([], some (.incompleteFrame "fn".data)) ∧
    framesFromLines ["fn".data, "nofile".data] =
      ([⟨0, "fn", "nofile", 0⟩], none) :=
  ⟨(claim_C8_first_colon "fn".data "a:12".data).1 1 12 rfl (by decide) rfl,
   (claim_C8_first_colon "fn".data "a:b:12".data).2.1 1 rfl (by decide) rfl,
   (claim_C8_first_colon "fn".data "nofile".data).2.2 (Or.inl rfl)⟩

/-- The `Location()` of a synthetic frame (pc = 0): `getFunction`,
`getFile` and `getLine` (frames.go lines 184-223) fall back to
`"unknown"` for empty strings; the line is returned as stored.  Frames
with a live pc resolve against the Go runtime, outside this model. -/
def frameLocation (f : frame) : String × String × Int :=
  ((if f.function = "" then "unknown" else f.function),
   (if f.file = "" then "unknown" else f.file),
   f.line)

/-- Lowercase hex digit, as in `strconv`'s `lowerhex` table. -/
def hexDig (n : Nat) : Char :=
  if n < 10 then Char.ofNat (48 + n) else Char.ofNat (87 + n)

/-- One character of Go's `%q` verb (`strconv.Quote`): quote and
backslash get a backslash escape; printable ASCII passes through; the
C escapes `\a` `\b` `\f` `\n` `\r` `\t` `\v` cover 0x07-0x0d; any other
control character and DEL (0x7f) print as lowercase `\xNN`.  A
non-ASCII rune passes through, which matches Go only when
`unicode.IsPrint` holds for it (the Unicode tables are not modelled);
every statement below restricts content to ASCII. -/
def qescChar (c : Char) : List Char :=
  if c = '"' then ['\\', '"']
  else if c = '\\' then ['\\', '\\']
  else if 32 ≤ c.toNat ∧ c.toNat ≤ 126 then [c]
  else if c = '\x07' then ['\\', 'a']
  else if c = '\x08' then ['\\', 'b']
  else if c = '\x0c' then ['\\', 'f']
  else if c = '\n' then ['\\', 'n']
  else if c = '\r' then ['\\', 'r']
  else if c = '\t' then ['\\', 't']
  else if c = '\x0b' then ['\\', 'v']
  else if c.toNat < 32 ∨ c.toNat = 127 then
    ['\\', 'x', hexDig (c.toNat / 16), hexDig (c.toNat % 16)]
  else [c]

/-- The content escaping of Go's `%q` verb: each character rendered by
`qescChar`. -/
def qesc : List Char → List Char
  | [] => []
  | c :: rest => qescChar c ++ qesc rest

/-- Go `%q`: a double-quoted, escaped string literal. -/
def goQuote (s : List Char) : List Char := '"' :: (qesc s ++ ['"'])

/-- Characters whose `%q` image is a JSON-legal string fragment: the
`escaper` pre-pass turns backslash, tab, newline and quote into
two-character sequences that `%q` re-escapes to `\\\\`, `\\t`, `\\n`,
`\\"`; backspace, form feed and carriage return print as `\b`, `\f`,
`\r`, which JSON also accepts; other printable ASCII passes through.
Everything else (the remaining control characters and DEL) prints as
`\a`, `\v` or `\xNN`, which the JSON scanner rejects, so
`Frames.MarshalJSON` errors on such content. -/
def jsonSafeGo (c : Char) : Bool :=
  decide ((32 ≤ c.toNat ∧ c.toNat ≤ 126) ∨ c = '\t' ∨ c = '\n' ∨ c = '\r' ∨
    c = '\x08' ∨ c = '\x0c')

/-- Decimal digit string of a natural number (Go `%d`). -/
def natRepr (n : Nat) : List Char :=
  if n = 0 then ['0']
  else ((Nat.digits 10 n).map (fun d => Char.ofNat (48 + d))).reverse

/-- Decimal digit string of an integer (Go `%d`). -/
def intRepr : Int → List Char
  | .ofNat n => natRepr n
  | .negSucc m => '-' :: natRepr (m + 1)

/-- Embedding of `frame.MarshalJSON` (frames.go lines 167-172): the
object `\x7b"function":%q,"file":%q,"line":%d\x7d` over the escaped
location strings. -/
def frameJSON (f : frame) : List Char :=
  '\x7b' :: (goQuote "function".data ++ ':' ::
    (goQuote (escapeChars (frameLocation f).1.data) ++ ',' ::
      (goQuote "file".data ++ ':' ::
        (goQuote (escapeChars (frameLocation f).2.1.data) ++ ',' ::
          (goQuote "line".data ++ ':' ::
            (intRepr (frameLocation f).2.2 ++ ['\x7d']))))))

/-- `bytes.Join(_, ",")`. -/
def joinComma : List (List Char) → List Char
  | [] => []
  | [x] => x
  | x :: xs => x ++ ',' :: joinComma xs

/-- One step of `encoding/json`'s string scan (scanner states
`stateInString` / `stateInStringEsc`): a raw character must be at least
0x20 and not a quote or backslash; an escape must be one of the eight
single-character escapes (`\uXXXX` is not modelled: the marshaler
never emits it for the ASCII content in scope). -/
def jsonValidBody : List Char → Bool
  | [] => true
  | c :: rest =>
      if c = '\\' then
        match rest with
        | [] => false
        | e :: rest2 =>
            if e = '"' ∨ e = '\\' ∨ e = '/' ∨ e = 'b' ∨ e = 'f' ∨
                e = 'n' ∨ e = 'r' ∨ e = 't' then jsonValidBody rest2
            else false
      else if 32 ≤ c.toNat ∧ c ≠ '"' then jsonValidBody rest else false

/-- `json.Marshal` applied to one frame (the loop body of
`Frames.MarshalJSON`, frames.go line 331): `frame.MarshalJSON` itself
never errors, but `json.Marshal` re-scans the bytes a marshaler
returns (`encoding/json`'s `compact`) and errors on invalid JSON.  On
the fixed object scaffold `frameJSON` prints, every byte outside the
two `%q` string bodies is a fixed printable token and the line number
prints as a bare integer, so the scan accepts the object exactly when
both bodies are valid JSON string bodies. -/
def jsonMarshalFrame (f : frame) : Option (List Char) :=
  if jsonValidBody (qesc (escapeChars (frameLocation f).1.data)) = true ∧
      jsonValidBody (qesc (escapeChars (frameLocation f).2.1.data)) = true
  then some (frameJSON f) else none

/-- The `frBytes` loop of `Frames.MarshalJSON`: marshal each frame in
order, aborting on the first error. -/
def marshalManyGo : List frame → Option (List (List Char))
  | [] => some []
  | f :: fs =>
      match jsonMarshalFrame f with
      | none => none
      | some b =>
          match marshalManyGo fs with
          | none => none
          | some bs => some (b :: bs)

/-- Embedding of `Frames.MarshalJSON` (frames.go lines 318-345): an
empty or nil sequence serializes to the `null` token; otherwise each
frame is marshaled through `json.Marshal` (first error aborts) and the
results are comma-joined inside brackets. -/
def marshalFrames (ff : List frame) : Option (List Char) :=
  if ff.length = 0 then some ('n' :: 'u' :: 'l' :: 'l' :: [])
  else
    match marshalManyGo ff with
    | none => none
    | some bs => some ('[' :: (joinComma bs ++ [']']))

/-- JSON string-body scanner (model of the stdlib `encoding/json`
string decoding): read until the closing quote, decoding the JSON
escape sequences the library's marshaler can produce (the `\uXXXX` form
is not modelled; the marshaler never emits it for printable content). -/
def jsonStrBody : List Char → Option (List Char × List Char)
  | [] => none
  | '"' :: rest => some ([], rest)
  | '\\' :: '"' :: rest => (jsonStrBody rest).map (fun p => ('"' :: p.1, p.2))
  | '\\' :: '\\' :: rest => (jsonStrBody rest).map (fun p => ('\\' :: p.1, p.2))
  | '\\' :: '/' :: rest => (jsonStrBody rest).map (fun p => ('/' :: p.1, p.2))
  | '\\' :: 't' :: rest => (jsonStrBody rest).map (fun p => ('\t' :: p.1, p.2))
  | '\\' :: 'n' :: rest => (jsonStrBody rest).map (fun p => ('\n' :: p.1, p.2))
  | '\\' :: 'r' :: rest => (jsonStrBody rest).map (fun p => ('\r' :: p.1, p.2))
  | '\\' :: 'b' :: rest => (jsonStrBody rest).map (fun p => ('\x08' :: p.1, p.2))
  | '\\' :: 'f' :: rest => (jsonStrBody rest).map (fun p => ('\x0c' :: p.1, p.2))
  | '\\' :: _ :: _ => none
  | c :: rest => (jsonStrBody rest).map (fun p => (c :: p.1, p.2))

/-- JSON string literal: a quote followed by a string body. -/
def jsonString : List Char → Option (List Char × List Char)
  | '"' :: rest => jsonStrBody rest
  | _ => none

/-- Greedy decimal scan for JSON numbers. -/
def readDigits (acc : Nat) : List Char → Nat × List Char
  | [] => (acc, [])
  | c :: rest =>
      match digToNat c with
      | some d => readDigits (acc * 10 + d) rest
      | none => (acc, c :: rest)

/-- JSON integer (fractions and exponents are not modelled; the
marshaler only emits integers). -/
def jsonInt : List Char → Option (Int × List Char)
  | [] => none
  | c :: rest =>
      if c = '-' then
        match rest with
        | [] => none
        | c2 :: _ =>
            match digToNat c2 with
            | some _ =>
                some (-(((readDigits 0 rest).1 : Nat) : Int), (readDigits 0 rest).2)
            | none => none
      else
        match digToNat c with
        | some _ =>
            some (((readDigits 0 (c :: rest)).1 : Int), (readDigits 0 (c :: rest)).2)
        | none => none

/-- The decode target of `framesFromJSON` (frames.go lines 522-526):
`frameUnmarshaler` with Go zero values for missing keys. -/
structure frameUM where
  function : List Char
  file : List Char
  line : Int
deriving DecidableEq, Repr

/-- One `"key": value` member of a frame object, mirroring
`encoding/json` field matching: a string value sets `function` or
`file`, an integer value sets `line`, a type mismatch on a known key is
an error, and unknown keys are ignored. -/
def jsonMember (um : frameUM) (l : List Char) : Option (frameUM × List Char) :=
  match jsonString l with
  | none => none
  | some (key, rest) =>
      match rest with
      | [] => none
      | c :: rest2 =>
          if c = ':' then
            match jsonString rest2 with
            | some (sv, rest3) =>
                if key = "function".data then
                  some ({ um with function := sv }, rest3)
                else if key = "file".data then some ({ um with file := sv }, rest3)
                else if key = "line".data then none
                else some (um, rest3)
            | none =>
                match jsonInt rest2 with
                | some (n, rest3) =>
                    if key = "line".data then some ({ um with line := n }, rest3)
                    else if key = "function".data ∨ key = "file".data then none
                    else some (um, rest3)
                | none => none
          else none

/-- Fueled member list: members separated by commas until the closing
brace.  The fuel only bounds recursion depth; callers pass one more
than the input length, which every chain of members stays under. -/
def jsonMembersF : Nat → frameUM → List Char → Option (frameUM × List Char)
  | 0, _, _ => none
  | fuel + 1, um, l =>
      match jsonMember um l with
      | none => none
      | some (um2, rest) =>
          match rest with
          | [] => none
          | c :: rest2 =>
              if c = ',' then jsonMembersF fuel um2 rest2
              else if c = '\x7d' then some (um2, rest2)
              else none

/-- One frame object. -/
def jsonObjectF (fuel : Nat) (l : List Char) : Option (frameUM × List Char) :=
  match l with
  | [] => none
  | c :: rest =>
      if c = '\x7b' then
        match rest with
        | [] => jsonMembersF fuel ⟨[], [], 0⟩ []
        | c2 :: rest2 =>
            if c2 = '\x7d' then some (⟨[], [], 0⟩, rest2)
            else jsonMembersF fuel ⟨[], [], 0⟩ (c2 :: rest2)
      else none

/-- Comma-separated frame objects up to the closing bracket. -/
def jsonItemsF : Nat → List Char → Option (List frameUM × List Char)
  | 0, _ => none
  | fuel + 1, l =>
      match jsonObjectF (fuel + 1) l with
      | none => none
      | some (um, rest) =>
          match rest with
          | [] => none
          | c :: rest2 =>
              if c = ',' then
                match jsonItemsF fuel rest2 with
                | some (ums, r) => some (um :: ums, r)
                | none => none
              else if c = ']' then some ([um], rest2)
              else none

/-- Model of `json.Unmarshal(byt, &[]frameUnmarshaler)`: a bracketed
array of frame objects consuming the whole input. -/
def jsonParseFrames (l : List Char) : Option (List frameUM) :=
  match l with
  | [] => none
  | c :: rest =>
      if c = '[' then
        match rest with
        | [] => none
        | c2 :: rest2 =>
            if c2 = ']' then (if rest2.isEmpty then some [] else none)
            else
              match jsonItemsF (l.length + 1) (c2 :: rest2) with
              | some (ums, []) => some ums
              | _ => none
      else none

/-- Embedding of `framesFromJSON` (frames.go lines 517-543): the exact
`null` token is a no-op by convention; otherwise unmarshal and build
synthetic frames from the unescaped fields. -/
def framesFromJSON (byt : List Char) : Option (List frame) :=
  if byt = 'n' :: 'u' :: 'l' :: 'l' :: [] then some []
  else
    match jsonParseFrames byt with
    | none => none
    | some ums =>
        some (ums.map fun um =>
          ⟨0, String.mk (unescapeChars um.function),
              String.mk (unescapeChars um.file), um.line⟩)

theorem jsonStrBody_plain {c : Char} (h1 : c ≠ '"') (h2 : c ≠ '\\')
    (l : List Char) :
    jsonStrBody (c :: l) = (jsonStrBody l).map (fun p => (c :: p.1, p.2)) := by
  rw [jsonStrBody.eq_def]
  split <;> simp_all

theorem unescapeChars_plain {c : Char} (h : c ≠ '\\') (l : List Char) :
    unescapeChars (c :: l) = c :: unescapeChars l := by
  rw [unescapeChars.eq_def]
  split <;> simp_all

theorem jsonString_not_quote {c : Char} (h : c ≠ '"') (l : List Char) :
    jsonString (c :: l) = none := by
  rw [jsonString.eq_def]
  split <;> simp_all

theorem jsonStrBody_qesc :
    ∀ (s : List Char), (∀ c ∈ s, jsonSafeGo c = true) →
    ∀ (rest : List Char), jsonStrBody (qesc s ++ '"' :: rest) = some (s, rest) := by
  intro s
  induction s with
  | nil => intro _ rest; simp [qesc, jsonStrBody]
  | cons c s ih =>
      intro hs rest
      have hc := of_decide_eq_true (hs c (List.mem_cons_self _ _))
      have ih2 := ih (fun x hx => hs x (List.mem_cons_of_mem _ hx)) rest
      rw [qesc]
      by_cases h1 : c = '"'
      · subst h1
        rw [show qescChar '"' = ['\\', '"'] from by decide]
        simp [jsonStrBody, ih2]
      · by_cases h2 : c = '\\'
        · subst h2
          rw [show qescChar '\\' = ['\\', '\\'] from by decide]
          simp [jsonStrBody, ih2]
        · by_cases h3 : c = '\t'
          · subst h3
            rw [show qescChar '\t' = ['\\', 't'] from by decide]
            simp [jsonStrBody, ih2]
          · by_cases h4 : c = '\n'
            · subst h4
              rw [show qescChar '\n' = ['\\', 'n'] from by decide]
              simp [jsonStrBody, ih2]
            · by_cases h5 : c = '\r'
              · subst h5
                rw [show qescChar '\r' = ['\\', 'r'] from by decide]
                simp [jsonStrBody, ih2]
              · by_cases h6 : c = '\x08'
                · subst h6
                  rw [show qescChar '\x08' = ['\\', 'b'] from by decide]
                  simp [jsonStrBody, ih2]
                · by_cases h7 : c = '\x0c'
                  · subst h7
                    rw [show qescChar '\x0c' = ['\\', 'f'] from by decide]
                    simp [jsonStrBody, ih2]
                  · have hpr : 32 ≤ c.toNat ∧ c.toNat ≤ 126 := by
                      rcases hc with h | h | h | h | h | h
                      · exact h
                      all_goals exact absurd h (by assumption)
                    rw [qescChar, if_neg h1, if_neg h2, if_pos hpr]
                    simp only [List.singleton_append, List.cons_append,
                      List.nil_append, List.append_assoc]
                    rw [jsonStrBody_plain h1 h2, ih2]
                    rfl

theorem jsonString_goQuote (s rest : List Char)
    (hs : ∀ c ∈ s, jsonSafeGo c = true) :
    jsonString (goQuote s ++ rest) = some (s, rest) := by
  rw [goQuote]
  simp only [List.cons_append, List.append_assoc, List.singleton_append,
    List.nil_append]
  rw [show jsonString ('"' :: (qesc s ++ '"' :: rest)) =
      jsonStrBody (qesc s ++ '"' :: rest) from rfl, jsonStrBody_qesc s hs rest]

theorem jsonValidBody_qesc :
    ∀ (s : List Char), (∀ c ∈ s, jsonSafeGo c = true) →
    jsonValidBody (qesc s) = true := by
  intro s
  induction s with
  | nil => intro _; rfl
  | cons c s ih =>
      intro hs
      have hc := of_decide_eq_true (hs c (List.mem_cons_self _ _))
      have ih2 := ih (fun x hx => hs x (List.mem_cons_of_mem _ hx))
      rw [qesc]
      by_cases h1 : c = '"'
      · subst h1
        rw [show qescChar '"' = ['\\', '"'] from by decide]
        simp [jsonValidBody, ih2]
      · by_cases h2 : c = '\\'
        · subst h2
          rw [show qescChar '\\' = ['\\', '\\'] from by decide]
          simp [jsonValidBody, ih2]
        · by_cases h3 : c = '\t'
          · subst h3
            rw [show qescChar '\t' = ['\\', 't'] from by decide]
            simp [jsonValidBody, ih2]
          · by_cases h4 : c = '\n'
            · subst h4
              rw [show qescChar '\n' = ['\\', 'n'] from by decide]
              simp [jsonValidBody, ih2]
            · by_cases h5 : c = '\r'
              · subst h5
                rw [show qescChar '\r' = ['\\', 'r'] from by decide]
                simp [jsonValidBody, ih2]
              · by_cases h6 : c = '\x08'
                · subst h6
                  rw [show qescChar '\x08' = ['\\', 'b'] from by decide]
                  simp [jsonValidBody, ih2]
                · by_cases h7 : c = '\x0c'
                  · subst h7
                    rw [show qescChar '\x0c' = ['\\', 'f'] from by decide]
                    simp [jsonValidBody, ih2]
                  · have hpr : 32 ≤ c.toNat ∧ c.toNat ≤ 126 := by
                      rcases hc with h | h | h | h | h | h
                      · exact h
                      all_goals exact absurd h (by assumption)
                    rw [qescChar, if_neg h1, if_neg h2, if_pos hpr]
                    simp only [List.singleton_append]
                    rw [jsonValidBody.eq_def]
                    dsimp only
                    rw [if_neg h2, if_pos ⟨hpr.1, h1⟩, ih2]

theorem safe_escapeChars :
    ∀ (l : List Char), (∀ c ∈ l, jsonSafeGo c = true) →
    ∀ c ∈ escapeChars l, jsonSafeGo c = true := by
  intro l
  induction l with
  | nil => intro _ c hc; simp [escapeChars] at hc
  | cons a l ih =>
      intro h c hc
      have ha := h a (List.mem_cons_self _ _)
      have iht := ih (fun x hx => h x (List.mem_cons_of_mem _ hx))
      rw [escapeChars] at hc
      by_cases h1 : a = '\\'
      · rw [if_pos h1] at hc
        simp only [List.mem_cons] at hc
        rcases hc with rfl | rfl | hc
        · decide
        · decide
        · exact iht c hc
      · rw [if_neg h1] at hc
        by_cases h2 : a = '\t'
        · rw [if_pos h2] at hc
          simp only [List.mem_cons] at hc
          rcases hc with rfl | rfl | hc
          · decide
          · decide
          · exact iht c hc
        · rw [if_neg h2] at hc
          by_cases h3 : a = '\n'
          · rw [if_pos h3] at hc
            simp only [List.mem_cons] at hc
            rcases hc with rfl | rfl | hc
            · decide
            · decide
            · exact iht c hc
          · rw [if_neg h3] at hc
            by_cases h4 : a = '"'
            · rw [if_pos h4] at hc
              simp only [List.mem_cons] at hc
              rcases hc with rfl | rfl | hc
              · decide
              · decide
              · exact iht c hc
            · rw [if_neg h4] at hc
              simp only [List.mem_cons] at hc
              rcases hc with rfl | hc
              · exact ha
              · exact iht c hc

theorem unescape_escape (s : List Char) : unescapeChars (escapeChars s) = s := by
  induction s with
  | nil => rfl
  | cons c s ih =>
      by_cases h1 : c = '\\'
      · subst h1; simp [escapeChars, unescapeChars, ih]
      · by_cases h2 : c = '\t'
        · subst h2; simp [escapeChars, unescapeChars, ih]
        · by_cases h3 : c = '\n'
          · subst h3; simp [escapeChars, unescapeChars, ih]
          · by_cases h4 : c = '"'
            · subst h4; simp [escapeChars, unescapeChars, ih]
            · rw [escapeChars]
              simp only [if_neg h1, if_neg h2, if_neg h3, if_neg h4]
              rw [unescapeChars_plain h1, ih]

theorem digToNat_digitChar {d : Nat} (h : d < 10) :
    digToNat (Char.ofNat (48 + d)) = some d := by
  interval_cases d <;> decide

theorem digitChar_ne {d : Nat} (h : d < 10) :
    Char.ofNat (48 + d) ≠ '-' ∧ Char.ofNat (48 + d) ≠ '"' := by
  interval_cases d <;> exact ⟨by decide, by decide⟩

/-- Lists that do not begin with a decimal digit. -/
def noLeadDigit : List Char → Prop
  | [] => True
  | c :: _ => digToNat c = none

theorem readDigits_stop {l : List Char} (h : noLeadDigit l) (acc : Nat) :
    readDigits acc l = (acc, l) := by
  cases l with
  | nil => rfl
  | cons c r =>
      have h2 : digToNat c = none := h
      rw [readDigits, h2]

theorem readDigits_chars (ds : List Nat) (hds : ∀ d ∈ ds, d < 10) :
    ∀ (acc : Nat) (rest : List Char), noLeadDigit rest →
    readDigits acc (ds.map (fun d => Char.ofNat (48 + d)) ++ rest) =
      (Nat.ofDigits 10 ds.reverse + acc * 10 ^ ds.length, rest) := by
  induction ds with
  | nil =>
      intro acc rest h
      simp only [List.map_nil, List.nil_append]
      rw [readDigits_stop h]
      simp [Nat.ofDigits_nil]
  | cons d ds ih =>
      intro acc rest h
      simp only [List.map_cons, List.cons_append]
      rw [readDigits, digToNat_digitChar (hds d (List.mem_cons_self _ _))]
      dsimp only
      rw [ih (fun x hx => hds x (List.mem_cons_of_mem _ hx)) _ _ h]
      have : Nat.ofDigits 10 ((d :: ds).reverse) =
          Nat.ofDigits 10 ds.reverse + d * 10 ^ ds.length := by
        rw [List.reverse_cons, Nat.ofDigits_append, Nat.ofDigits_singleton,
          List.length_reverse]
        ring
      rw [this, List.length_cons]
      congr 1
      ring

theorem natRepr_readDigits (n : Nat) {rest : List Char} (h : noLeadDigit rest) :
    readDigits 0 (natRepr n ++ rest) = (n, rest) := by
  by_cases h0 : n = 0
  · subst h0
    rw [show natRepr 0 = ['0'] from rfl, List.singleton_append, readDigits.eq_def]
    dsimp only
    rw [show digToNat '0' = some 0 from by decide]
    dsimp only
    rw [readDigits_stop h]
  · rw [natRepr, if_neg h0, ← List.map_reverse,
      readDigits_chars _ (fun d hd => Nat.digits_lt_base (by norm_num)
        (List.mem_reverse.mp hd)) 0 rest h]
    simp [List.reverse_reverse, Nat.ofDigits_digits]

theorem natRepr_head (n : Nat) :
    ∃ c cs, natRepr n = c :: cs ∧ ∃ d, d < 10 ∧ c = Char.ofNat (48 + d) := by
  by_cases h0 : n = 0
  · subst h0
    exact ⟨'0', [], rfl, 0, by norm_num, by decide⟩
  · rw [natRepr, if_neg h0]
    have hne : Nat.digits 10 n ≠ [] := Nat.digits_ne_nil_iff_ne_zero.mpr h0
    have hne2 : ((Nat.digits 10 n).map (fun d => Char.ofNat (48 + d))).reverse ≠
        [] := by simp [hne]
    obtain ⟨c, cs, hcs⟩ := List.exists_cons_of_ne_nil hne2
    refine ⟨c, cs, hcs, ?_⟩
    have hc : c ∈ (Nat.digits 10 n).map (fun d => Char.ofNat (48 + d)) := by
      rw [← List.mem_reverse, hcs]
      exact List.mem_cons_self _ _
    obtain ⟨d, hd, rfl⟩ := List.mem_map.mp hc
    exact ⟨d, Nat.digits_lt_base (by norm_num) hd, rfl⟩

theorem jsonInt_intRepr (n : Int) {tail : List Char} (ht : noLeadDigit tail) :
    jsonInt (intRepr n ++ tail) = some (n, tail) := by
  cases n with
  | ofNat m =>
      rw [intRepr]
      obtain ⟨c, cs, hcs, d, hd, hc⟩ := natRepr_head m
      subst hc
      rw [hcs, List.cons_append, jsonInt.eq_def]
      dsimp only
      rw [if_neg (digitChar_ne hd).1, digToNat_digitChar hd]
      dsimp only
      rw [← List.cons_append, ← hcs, natRepr_readDigits m ht]
      rfl
  | negSucc m =>
      rw [intRepr, List.cons_append, jsonInt.eq_def]
      dsimp only
      rw [if_pos rfl]
      obtain ⟨c, cs, hcs, d, hd, hc⟩ := natRepr_head (m + 1)
      subst hc
      rw [hcs, List.cons_append]
      dsimp only
      rw [digToNat_digitChar hd]
      dsimp only
      rw [← List.cons_append, ← hcs, natRepr_readDigits (m + 1) ht]
      simp [Int.negSucc_eq]

theorem goQuote_expose (s t : List Char) :
    goQuote s ++ t = '"' :: (qesc s ++ '"' :: t) := by
  rw [goQuote]
  simp [List.append_assoc]

theorem jsonString_intRepr (n : Int) (tail : List Char) :
    jsonString (intRepr n ++ tail) = none := by
  cases n with
  | ofNat m =>
      obtain ⟨c, cs, hcs, d, hd, hc⟩ := natRepr_head m
      rw [intRepr, hcs, List.cons_append]
      subst hc
      exact jsonString_not_quote (digitChar_ne hd).2 _
  | negSucc m =>
      rw [intRepr, List.cons_append]
      exact jsonString_not_quote (by decide) _

theorem joinComma_one (x : List Char) : joinComma [x] = x := rfl

theorem joinComma_cons2 (x y : List Char) (xs : List (List Char)) :
    joinComma (x :: y :: xs) = x ++ ',' :: joinComma (y :: xs) := rfl

theorem jsonMember_function (um : frameUM) (v tail : List Char)
    (hv : ∀ c ∈ v, jsonSafeGo c = true) :
    jsonMember um (goQuote "function".data ++ ':' :: (goQuote v ++ tail)) =
      some ({ um with function := v }, tail) := by
  rw [jsonMember,
    jsonString_goQuote "function".data (':' :: (goQuote v ++ tail)) (by decide)]
  dsimp only
  rw [if_pos rfl, jsonString_goQuote v tail hv]
  dsimp only
  rw [if_pos rfl]

theorem jsonMember_file (um : frameUM) (v tail : List Char)
    (hv : ∀ c ∈ v, jsonSafeGo c = true) :
    jsonMember um (goQuote "file".data ++ ':' :: (goQuote v ++ tail)) =
      some ({ um with file := v }, tail) := by
  rw [jsonMember,
    jsonString_goQuote "file".data (':' :: (goQuote v ++ tail)) (by decide)]
  dsimp only
  rw [if_pos rfl, jsonString_goQuote v tail hv]
  dsimp only
  rw [if_neg (by decide), if_pos rfl]

theorem jsonMember_line (um : frameUM) (n : Int) (tail : List Char)
    (h : noLeadDigit tail) :
    jsonMember um (goQuote "line".data ++ ':' :: (intRepr n ++ tail)) =
      some ({ um with line := n }, tail) := by
  rw [jsonMember,
    jsonString_goQuote "line".data (':' :: (intRepr n ++ tail)) (by decide)]
  dsimp only
  rw [if_pos rfl, jsonString_intRepr]
  dsimp only
  rw [jsonInt_intRepr n h]
  dsimp only
  rw [if_pos rfl]

theorem jsonObjectF_members (fuel : Nat) (X : List Char) :
    jsonObjectF fuel ('\x7b' :: ('"' :: X)) =
      jsonMembersF fuel ⟨[], [], 0⟩ ('"' :: X) := rfl

/-- The `frameUnmarshaler` produced by parsing `frameJSON f`: the
escaped location strings and the line number. -/
def umOf (f : frame) : frameUM :=
  ⟨escapeChars (frameLocation f).1.data, escapeChars (frameLocation f).2.1.data,
   (frameLocation f).2.2⟩

/-- Frames whose escaped location strings are JSON-safe: exactly those
`json.Marshal` accepts (see `jsonMarshalFrame`). -/
def frameSafe (f : frame) : Prop :=
  (∀ c ∈ escapeChars (frameLocation f).1.data, jsonSafeGo c = true) ∧
  (∀ c ∈ escapeChars (frameLocation f).2.1.data, jsonSafeGo c = true)

theorem jsonObjectF_frameJSON (f : frame) (rest : List Char) (fuel : Nat)
    (hf : 3 ≤ fuel) (hs : frameSafe f) :
    jsonObjectF fuel (frameJSON f ++ rest) = some (umOf f, rest) := by
  obtain ⟨k, rfl⟩ : ∃ k, fuel = k + 3 := ⟨fuel - 3, by omega⟩
  rw [frameJSON]
  simp only [List.cons_append, List.append_assoc, List.singleton_append,
    List.nil_append]
  rw [goQuote_expose, jsonObjectF_members, ← goQuote_expose]
  rw [show k + 3 = (k + 2) + 1 from rfl, jsonMembersF,
    jsonMember_function _ _ _ hs.1]
  dsimp only
  rw [show k + 2 = (k + 1) + 1 from rfl, jsonMembersF,
    jsonMember_file _ _ _ hs.2]
  dsimp only
  rw [jsonMembersF, jsonMember_line _ _ _
    (by exact (by decide : digToNat '\x7d' = none))]
  rfl

theorem jsonItemsF_frames (ff : List frame) :
    ∀ (rest : List Char) (fuel : Nat), (∀ f ∈ ff, frameSafe f) → ff ≠ [] →
      ff.length + 3 ≤ fuel →
      jsonItemsF fuel (joinComma (ff.map frameJSON) ++ ']' :: rest) =
        some (ff.map umOf, rest) := by
  induction ff with
  | nil => intro rest fuel _ h _; exact absurd rfl h
  | cons f ff ih =>
      intro rest fuel hsafe _ hfuel
      obtain ⟨k, rfl⟩ : ∃ k, fuel = k + 1 := ⟨fuel - 1, by omega⟩
      have hsf := hsafe f (List.mem_cons_self _ _)
      cases ff with
      | nil =>
          rw [List.map_cons, List.map_nil, joinComma_one, jsonItemsF,
            jsonObjectF_frameJSON f (']' :: rest) (k + 1)
              (by simp at hfuel; omega) hsf]
          rfl
      | cons f2 ff2 =>
          rw [List.map_cons, List.map_cons, joinComma_cons2]
          simp only [List.append_assoc, List.cons_append]
          rw [jsonItemsF,
            jsonObjectF_frameJSON f _ (k + 1) (by simp at hfuel ⊢; omega) hsf]
          dsimp only
          rw [if_pos rfl,
            show frameJSON f2 :: List.map frameJSON ff2 =
              List.map frameJSON (f2 :: ff2) from rfl,
            ih rest k (fun x hx => hsafe x (List.mem_cons_of_mem _ hx))
              (by simp) (by simp at hfuel ⊢; omega)]
          rfl

theorem frameJSON_length_pos (f : frame) : 0 < (frameJSON f).length := by
  rw [frameJSON]
  simp

theorem joinComma_length_ge (ff : List frame) :
    ff.length ≤ (joinComma (ff.map frameJSON)).length := by
  induction ff with
  | nil => simp [joinComma]
  | cons f ff ih =>
      cases ff with
      | nil =>
          rw [List.map_cons, List.map_nil, joinComma_one]
          have := frameJSON_length_pos f
          simp only [List.length_cons, List.length_nil]
          omega
      | cons f2 ff2 =>
          rw [List.map_cons, List.map_cons, joinComma_cons2]
          have h1 := frameJSON_length_pos f
          rw [List.map_cons] at ih
          simp only [List.length_append, List.length_cons] at ih ⊢
          omega

theorem framesFromJSON_marshal (f : frame) (ff2 : List frame)
    (hs : ∀ g ∈ f :: ff2, frameSafe g) :
    framesFromJSON ('[' :: (joinComma ((f :: ff2).map frameJSON) ++ [']'])) =
      some ((f :: ff2).map fun g =>
        ⟨0, String.mk (unescapeChars (escapeChars (frameLocation g).1.data)),
            String.mk (unescapeChars (escapeChars (frameLocation g).2.1.data)),
            (frameLocation g).2.2⟩) := by
  rw [framesFromJSON, if_neg (by simp)]
  rw [jsonParseFrames.eq_def]
  dsimp only
  rw [if_pos rfl]
  have hexp : ∃ Z, joinComma ((f :: ff2).map frameJSON) ++ [']'] =
      '\x7b' :: Z := by
    rw [List.map_cons]
    cases ff2 with
    | nil =>
        rw [List.map_nil, joinComma_one, frameJSON]
        exact ⟨_, rfl⟩
    | cons f3 ff3 =>
        rw [List.map_cons, joinComma_cons2, frameJSON]
        exact ⟨_, rfl⟩
  obtain ⟨Z, hZ⟩ := hexp
  rw [hZ]
  dsimp only
  rw [if_neg (by decide)]
  rw [← hZ]
  rw [show joinComma ((f :: ff2).map frameJSON) ++ [']'] =
      joinComma ((f :: ff2).map frameJSON) ++ ']' :: [] from rfl]
  rw [jsonItemsF_frames (f :: ff2) [] _ hs (by simp) ?hlen]
  case hlen =>
    have h1 := joinComma_length_ge (f :: ff2)
    simp only [List.length_cons, List.length_append,
      List.length_singleton] at h1 ⊢
    omega
  dsimp only
  rw [List.map_map]
  rfl

theorem jsonMarshalFrame_some (f : frame) (hs : frameSafe f) :
    jsonMarshalFrame f = some (frameJSON f) := by
  rw [jsonMarshalFrame,
    if_pos ⟨jsonValidBody_qesc _ hs.1, jsonValidBody_qesc _ hs.2⟩]

theorem marshalManyGo_some :
    ∀ (ff : List frame), (∀ f ∈ ff, frameSafe f) →
    marshalManyGo ff = some (ff.map frameJSON) := by
  intro ff
  induction ff with
  | nil => intro _; rfl
  | cons f fs ih =>
      intro hs
      rw [marshalManyGo, jsonMarshalFrame_some f (hs f (List.mem_cons_self _ _))]
      dsimp only
      rw [ih (fun x hx => hs x (List.mem_cons_of_mem _ hx))]
      rfl

theorem marshal_roundtrip (ff : List frame) (hs : ∀ f ∈ ff, frameSafe f) :
    ∃ byt, marshalFrames ff = some byt ∧
      framesFromJSON byt =
        some (ff.map fun f =>
          ⟨0, String.mk (unescapeChars (escapeChars (frameLocation f).1.data)),
              String.mk (unescapeChars (escapeChars (frameLocation f).2.1.data)),
              (frameLocation f).2.2⟩) := by
  cases ff with
  | nil => exact ⟨_, rfl, rfl⟩
  | cons f ff2 =>
      refine ⟨'[' :: (joinComma ((f :: ff2).map frameJSON) ++ [']']), ?_, ?_⟩
      · rw [marshalFrames, if_neg (by simp), marshalManyGo_some _ hs]
      · exact framesFromJSON_marshal f ff2 hs

/-- C9: the frozen claim fails in the program.  The synthetic frame
with function DEL (0x7f), file "file.go" and line 1 meets the claim's
conditions — non-empty function and file, line > 0 — yet
`Frames.MarshalJSON` errors on the one-frame sequence holding it: `%q`
prints DEL as the four characters backslash, x, 7, f, an escape the
JSON scanner rejects, so `json.Marshal` fails inside the loop and no
serialization exists to parse back. -/
theorem claim_C9_counterexample :
    ("\x7f" : String) ≠ "" ∧ ("file.go" : String) ≠ "" ∧ ((0 : Int) < 1) ∧
    marshalFrames [⟨0, "\x7f", "file.go", 1⟩] = none :=
  ⟨by decide, by decide, by decide, by decide⟩

/-- C9 (amended): for every sequence of synthetic frames with
non-empty function and file, line > 0, and function/file content made
of JSON-safe characters (printable ASCII, tab, newline, carriage
return, backspace, form feed — on any other character `%q` prints
`\a`, `\v` or `\xNN` and `Frames.MarshalJSON` itself errors, see the
counterexample), marshaling succeeds and parsing the serialization
yields frames with identical function, file and line; an empty
sequence serializes to the `null` token (not an empty array), and
parsing the `null` token yields an empty result with no error. -/
theorem claim_C9_structured_round_trip :
    (∀ ff : List frame,
        (∀ f ∈ ff, f.function ≠ "" ∧ f.file ≠ "" ∧ 0 < f.line ∧
          (∀ c ∈ f.function.data, jsonSafeGo c = true) ∧
          (∀ c ∈ f.file.data, jsonSafeGo c = true)) →
        ∃ byt, marshalFrames ff = some byt ∧
          framesFromJSON byt =
            some (ff.map fun f => ⟨0, f.function, f.file, f.line⟩))
  ∧ marshalFrames [] = some ('n' :: 'u' :: 'l' :: 'l' :: []) ∧
    framesFromJSON ('n' :: 'u' :: 'l' :: 'l' :: []) = some [] := by
  refine ⟨?_, rfl, rfl⟩
  intro ff hff
  have hs : ∀ f ∈ ff, frameSafe f := by
    intro f hf
    obtain ⟨h1, h2, _, h4, h5⟩ := hff f hf
    have hloc : frameLocation f = (f.function, f.file, f.line) := by
      rw [frameLocation, if_neg h1, if_neg h2]
    constructor
    · rw [hloc]
      exact safe_escapeChars _ h4
    · rw [hloc]
      exact safe_escapeChars _ h5
  obtain ⟨byt, hb, hp⟩ := marshal_roundtrip ff hs
  refine ⟨byt, hb, ?_⟩
  rw [hp]
  congr 1
  apply List.map_congr_left
  intro f hf
  obtain ⟨h1, h2, _, _, _⟩ := hff f hf
  have hloc : frameLocation f = (f.function, f.file, f.line) := by
    rw [frameLocation, if_neg h1, if_neg h2]
  rw [hloc]
  dsimp only
  rw [unescape_escape, unescape_escape]

theorem claim_C9_structured_round_trip_witness :
    ∃ byt, marshalFrames [(⟨0, "fn", "file.go", 7⟩ : frame)] = some byt ∧
      framesFromJSON byt = some [⟨0, "fn", "file.go", 7⟩] :=
  claim_C9_structured_round_trip.1 [⟨0, "fn", "file.go", 7⟩] (by
    intro f hf
    simp only [List.mem_singleton] at hf
    subst hf
    refine ⟨by decide, by decide, by decide, by decide, by decide⟩)

end SecureworksErrors
